import Mathlib

/-!
# Verification of the pubsub-go broker (topic.go, hub.go)

Shallow embedding of the in-process publish/subscribe broker.

Modelling conventions, chosen to mirror the Go source line by line:

* A Go channel is modelled by `ChanState`: `cap` is the buffer capacity,
  `sent` is the full history of values ever sent on the channel (the buffer
  contents are `sent.drop readCount`), `readCount` counts values the consumer
  has received, and `closed` records `close(ch)`.  The fields `joinIdx`,
  `leftIdx`, `joinPub`, `leftPub` are specification-only history variables
  (ghost fields): they record the length of the topic's fan-out history /
  publish history at the moment the channel was registered and at the moment
  it was closed.  No operation ever reads them.
* Channel identity (Go compares channels by reference) is a `Nat` id; the
  caller of `Topic.Sub` supplies a fresh id, exactly as the Go runtime
  supplies a fresh channel.
* `interface{}` messages are modelled as `Nat` payloads.
* Blocking sends are modelled by enabledness: an operation that would block
  is not a completed step (the step function returns `none`), it can fire
  later when space is available.
* Goroutine interleaving is modelled by an explicit event list: the
  broadcast loop body (`deliver`), a consumer receive (`recv`) and the
  cancellation watcher (`watch`) are separate events that interleave freely
  with the API calls, reproducing the races of the source.
* A Go runtime panic (`close` of a nil channel in `topic.unsub`) is modelled
  by the explicit outcome `UnsubOutcome.panicked`; a panicking call produces
  no successor state.
* The external glob collaborator (`github.com/gobwas/glob`) is modelled by
  `globMatch`, a standard glob matcher over `*` and `?`; the spec treats the
  glob library as an external collaborator exposing
  `matches(pattern, topic) -> bool`, compiled once per pattern.
-/

/-- Messages (`interface{}` in the source) are modelled as natural numbers. -/
abbrev Msg := Nat

/-- The single error of the library: `ErrTopicAlreadyClosed` in topic.go. -/
inductive TopicErr where
  | alreadyClosed
deriving Repr, DecidableEq

/-- Outcome of `topic.Pub`: the error return, a successful (non-blocking)
enqueue, or a send that blocks because the intake queue is full. -/
inductive PubOutcome where
  | alreadyClosed
  | enqueued
  | blocked
deriving Repr, DecidableEq

/-- Outcome of `topic.Unsub`: the error return, success, or the runtime
panic raised by `close(t.subChans[ch])` when `ch` is not in the map
(`t.subChans[ch]` is the nil channel and `close(nil)` panics). -/
inductive UnsubOutcome where
  | alreadyClosed
  | ok
  | panicked
deriving Repr, DecidableEq

/-- State of one Go channel (a subscriber's output channel).
`sent` is the complete send history; the current buffer is
`sent.drop readCount`.  `joinIdx`/`leftIdx`/`joinPub`/`leftPub` are ghost
history variables, never read by any operation. -/
structure ChanState where
  cap : Nat
  sent : List Msg
  readCount : Nat
  closed : Bool
  joinIdx : Nat
  leftIdx : Option Nat
  joinPub : Nat
  leftPub : Option Nat
deriving Repr, DecidableEq

/-- State of one `topic` value (topic.go).
`pubChan` is the buffered content of the intake channel, `queueSize` its
capacity; `subChans` is the key set of the subscriber map (the map sends a
channel to itself, so the key set is the whole content); `chans` is the heap
of channels ever created by this topic, by id; `cancelled` records
`ctx.Done()`; `pubChanClosed` records `close(t.pubChan)` by the watcher.
`fanHistory`/`pubHistory` are ghost histories of the broadcast loop and of
accepted publishes. -/
structure Topic where
  queueSize : Nat
  pubChan : List Msg
  pubChanClosed : Bool
  subChans : List Nat
  chans : List (Nat × ChanState)
  cancelled : Bool
  fanHistory : List Msg
  pubHistory : List Msg
deriving Repr, DecidableEq

/-- Association-list lookup, modelling a Go map read `m[k]` (`ok` is
`isSome`). -/
def lookupA {κ α : Type} [DecidableEq κ] : List (κ × α) → κ → Option α
  | [], _ => none
  | p :: rest, k => if p.1 = k then some p.2 else lookupA rest k

/-- Association-list update, modelling a Go map write `m[k] = v`:
replace the entry when the key is present, append it otherwise. -/
def updA {κ α : Type} [DecidableEq κ] (l : List (κ × α)) (k : κ) (v : α) :
    List (κ × α) :=
  match lookupA l k with
  | some _ => l.map fun p => if p.1 = k then (k, v) else p
  | none => l ++ [(k, v)]

/-- Association-list deletion, modelling `delete(m, k)`. -/
def delA {κ α : Type} [DecidableEq κ] (l : List (κ × α)) (k : κ) :
    List (κ × α) :=
  l.filter fun p => decide (p.1 ≠ k)

/-- `NewTopic(ctx, queueSize)`: the context argument is modelled by the
cancellation state of the parent scope (a topic created under an
already-cancelled context starts cancelled). -/
def NewTopic (parentCancelled : Bool) (queueSize : Nat) : Topic :=
  { queueSize := queueSize
    pubChan := []
    pubChanClosed := false
    subChans := []
    chans := []
    cancelled := parentCancelled
    fanHistory := []
    pubHistory := [] }

/-- `topic.Pub`: the non-blocking `select` on `ctx.Done()` first; otherwise
`t.pubChan <- msg`, which blocks when the buffer is full. -/
def Topic.Pub (t : Topic) (m : Msg) : PubOutcome × Topic :=
  if t.cancelled then (PubOutcome.alreadyClosed, t)
  else if t.pubChan.length < t.queueSize then
    (PubOutcome.enqueued,
      { t with pubChan := t.pubChan ++ [m], pubHistory := t.pubHistory ++ [m] })
  else (PubOutcome.blocked, t)

/-- `topic.Sub`: error when cancelled, otherwise
`ch := make(chan interface{}, cap(t.pubChan)); t.subChans[ch] = ch`.
`fresh` is the identity of the newly made channel, supplied by the caller
(the Go runtime guarantees it is distinct from every existing channel). -/
def Topic.Sub (t : Topic) (fresh : Nat) : Except TopicErr (Nat × Topic) :=
  if t.cancelled then Except.error TopicErr.alreadyClosed
  else Except.ok (fresh,
    { t with
      subChans := t.subChans ++ [fresh]
      chans := t.chans ++ [(fresh,
        { cap := t.queueSize
          sent := []
          readCount := 0
          closed := false
          joinIdx := t.fanHistory.length
          leftIdx := none
          joinPub := t.pubHistory.length
          leftPub := none })] })

/-- Close the channel with id `ch` in the heap (ghost indices record the
current history lengths).  Models `close(t.subChans[ch])` for a present key. -/
def Topic.closeChan (t : Topic) (ch : Nat) : Topic :=
  { t with chans := t.chans.map fun p =>
      if p.1 = ch then
        (p.1, { p.2 with
          closed := true
          leftIdx := some t.fanHistory.length
          leftPub := some t.pubHistory.length })
      else p }

/-- `topic.Unsub`: error when cancelled; otherwise `t.unsub(ch)`, which is
`close(t.subChans[ch]); delete(t.subChans, ch)`.  When `ch` is not a key of
the map, `t.subChans[ch]` is the nil channel and `close(nil)` panics. -/
def Topic.Unsub (t : Topic) (ch : Nat) : UnsubOutcome × Topic :=
  if t.cancelled then (UnsubOutcome.alreadyClosed, t)
  else if ch ∈ t.subChans then
    (UnsubOutcome.ok, { t.closeChan ch with subChans := t.subChans.erase ch })
  else (UnsubOutcome.panicked, t)

/-- `topic.SubLen`. -/
def Topic.SubLen (t : Topic) : Nat :=
  t.subChans.length

/-- `topic.Close`: `t.cancel()`. -/
def Topic.Close (t : Topic) : Topic :=
  { t with cancelled := true }

/-- The watcher goroutine body of `topic.run`, firing after cancellation:
`close(t.pubChan); t.unsubAll()`.  `unsubAll` closes every registered
subscriber channel and clears the subscriber map. -/
def Topic.watchFire (t : Topic) : Topic :=
  { t with
    pubChanClosed := true
    chans := t.chans.map fun p =>
      if p.1 ∈ t.subChans then
        (p.1, { p.2 with
          closed := true
          leftIdx := some t.fanHistory.length
          leftPub := some t.pubHistory.length })
      else p
    subChans := [] }

/-- One iteration of the broadcast loop of `topic.run`:
take the next message from the intake channel and send it to every
currently registered subscriber channel (`topic.pub`).  The step is enabled
only when every registered subscriber has buffer space: a full subscriber
buffer blocks the loop (head-of-line blocking), so the iteration completes
only once space is available. -/
def Topic.deliver (t : Topic) : Option Topic :=
  match t.pubChan with
  | [] => none
  | m :: rest =>
    if t.chans.all (fun p =>
        !(t.subChans.contains p.1) || decide (p.2.sent.length - p.2.readCount < p.2.cap)) then
      some { t with
        pubChan := rest
        fanHistory := t.fanHistory ++ [m]
        chans := t.chans.map fun p =>
          if p.1 ∈ t.subChans then (p.1, { p.2 with sent := p.2.sent ++ [m] }) else p }
    else none

/-- A consumer receives one buffered value from the channel `ch`. -/
def Topic.recv (t : Topic) (ch : Nat) : Option Topic :=
  match lookupA t.chans ch with
  | none => none
  | some c =>
    if c.readCount < c.sent.length then
      some { t with chans := t.chans.map fun q =>
        if q.1 = ch then (q.1, { q.2 with readCount := q.2.readCount + 1 }) else q }
    else none

/-- Events of one topic's concurrent execution: API calls interleaved with
the broadcast-loop iterations, consumer receives, cancellation and the
watcher goroutine. -/
inductive TEvt where
  | pub (m : Msg)
  | sub
  | unsub (ch : Nat)
  | deliver
  | recv (ch : Nat)
  | close
  | watch
deriving Repr, DecidableEq

/-- Apply one event to a topic.  `none` means the event is not a completed
step here: the call blocks (full queue), errors out without changing state,
or panics.  Fresh channel ids are `t.chans.length` (ids are allocated in
order, so this is always fresh). -/
def applyT (t : Topic) (e : TEvt) : Option Topic :=
  match e with
  | TEvt.pub m =>
    match Topic.Pub t m with
    | (PubOutcome.enqueued, t') => some t'
    | _ => none
  | TEvt.sub =>
    match Topic.Sub t t.chans.length with
    | Except.ok (_, t') => some t'
    | Except.error _ => none
  | TEvt.unsub ch =>
    match Topic.Unsub t ch with
    | (UnsubOutcome.ok, t') => some t'
    | _ => none
  | TEvt.deliver => Topic.deliver t
  | TEvt.recv ch => Topic.recv t ch
  | TEvt.close => some (Topic.Close t)
  | TEvt.watch =>
    if t.cancelled ∧ ¬t.pubChanClosed then some (Topic.watchFire t) else none

/-- Run a list of events from a topic state. -/
def runT (t : Topic) : List TEvt → Option Topic
  | [] => some t
  | e :: es =>
    match applyT t e with
    | none => none
    | some t' => runT t' es

/-- Glob matching over `*` (any sequence) and `?` (any one character),
modelling the external collaborator `glob.MustCompile(pattern).Match(s)`
(`gobwas/glob` with no separators).  Structural recursion on a fuel
parameter so that the function reduces in the kernel; every recursive call
strictly decreases `p.length + s.length`, so fuel
`p.length + s.length + 1` always suffices. -/
def globGo : Nat → List Char → List Char → Bool
  | 0, _, _ => false
  | _ + 1, [], [] => true
  | _ + 1, [], _ :: _ => false
  | fuel + 1, c :: ps, s =>
    if c = '*' then
      globGo fuel ps s ||
        (match s with
         | [] => false
         | _ :: s' => globGo fuel (c :: ps) s')
    else
      match s with
      | [] => false
      | d :: s' => (c = '?' || c = d) && globGo fuel ps s'

/-- The compiled matcher for `pattern`, applied to `topic`. -/
def globMatch (pattern topic : String) : Bool :=
  globGo (pattern.toList.length + topic.toList.length + 1)
    pattern.toList topic.toList

/-- State of the `hub` value (hub.go).  `regexps` is the key set of the
compiled-matcher map: the value stored under key `p` is always
`glob.MustCompile(p)`, i.e. the matcher `globMatch p`, so only the key set
carries information.  `nextCh` is the supply of fresh channel identities
(the Go runtime's guarantee that every `make(chan ...)` is distinct). -/
structure Hub where
  queueSize : Nat
  topics : List (String × Topic)
  ptopics : List (String × Topic)
  regexps : List String
  cancelled : Bool
  nextCh : Nat
deriving Repr, DecidableEq

/-- `NewHub(queueSize)`. -/
def NewHub (queueSize : Nat) : Hub :=
  { queueSize := queueSize
    topics := []
    ptopics := []
    regexps := []
    cancelled := false
    nextCh := 0 }

/-- `hub.Pub`, traced: besides the updated hub, returns the list of Topic
errors that the source discards with `_ = t.Pub(msg)`, and whether any
delegated `Pub` would block (a blocked send means the call has not completed
yet).  The source looks up the exact topic and returns immediately when it
is absent; only when it is present does it run the pattern loop. -/
def Hub.PubT (h : Hub) (k : String) (m : Msg) : Hub × List TopicErr × Bool :=
  match lookupA h.topics k with
  | none => (h, [], false)
  | some t =>
    let r := Topic.Pub t m
    let e0 : List TopicErr :=
      if r.1 = PubOutcome.alreadyClosed then [TopicErr.alreadyClosed] else []
    let b0 : Bool := r.1 = PubOutcome.blocked
    let hit : String × Topic → Bool := fun pe =>
      h.regexps.contains pe.1 && globMatch pe.1 k
    let pts := h.ptopics.map fun pe =>
      if hit pe then (pe.1, (Topic.Pub pe.2 m).2) else pe
    let pe1 : List TopicErr := h.ptopics.filterMap fun pe =>
      if hit pe ∧ (Topic.Pub pe.2 m).1 = PubOutcome.alreadyClosed then
        some TopicErr.alreadyClosed
      else none
    let b1 : Bool := h.ptopics.any fun pe =>
      hit pe && ((Topic.Pub pe.2 m).1 = PubOutcome.blocked)
    ({ h with topics := updA h.topics k r.2, ptopics := pts }, e0 ++ pe1, b0 || b1)

/-- `hub.Pub` as the caller sees it: no error, no result. -/
def Hub.Pub (h : Hub) (k : String) (m : Msg) : Hub :=
  (Hub.PubT h k m).1

/-- `hub.Sub`, traced: the returned stream (`none` is the nil channel), the
Topic error the source discards with `ch, _ := t.Sub()`, and the updated
hub.  A missing topic is first created with `NewTopic(h.ctx, h.queueSize)`
and registered. -/
def Hub.SubT (h : Hub) (k : String) : Option Nat × Option TopicErr × Hub :=
  match lookupA h.topics k with
  | some t =>
    match Topic.Sub t h.nextCh with
    | Except.ok (ch, t') =>
      (some ch, none,
        { h with topics := updA h.topics k t', nextCh := h.nextCh + 1 })
    | Except.error e => (none, some e, h)
  | none =>
    let t := NewTopic h.cancelled h.queueSize
    match Topic.Sub t h.nextCh with
    | Except.ok (ch, t') =>
      (some ch, none,
        { h with topics := updA (updA h.topics k t) k t',
                 nextCh := h.nextCh + 1 })
    | Except.error e => (none, some e, { h with topics := updA h.topics k t })

/-- `hub.Sub` as the caller sees it: a stream or nil, never an error. -/
def Hub.Sub (h : Hub) (k : String) : Option Nat × Hub :=
  ((Hub.SubT h k).1, (Hub.SubT h k).2.2)

/-- `hub.Unsub`, traced.  `none` models the runtime panic propagating out of
`t.Unsub(ch)` when `ch` is not in the topic's subscriber map.  Otherwise the
discarded Topic error (`_ = t.Unsub(ch)`) is returned alongside the updated
hub; when the topic's subscriber count has dropped to zero the topic is
closed and removed from the registry. -/
def Hub.UnsubT (h : Hub) (k : String) (ch : Nat) :
    Option (Option TopicErr × Hub) :=
  match lookupA h.topics k with
  | none => some (none, h)
  | some t =>
    match Topic.Unsub t ch with
    | (UnsubOutcome.panicked, _) => none
    | (UnsubOutcome.alreadyClosed, t') =>
      if Topic.SubLen t' = 0 then
        some (some TopicErr.alreadyClosed, { h with topics := delA h.topics k })
      else
        some (some TopicErr.alreadyClosed, { h with topics := updA h.topics k t' })
    | (UnsubOutcome.ok, t') =>
      if Topic.SubLen t' = 0 then
        some (none, { h with topics := delA h.topics k })
      else
        some (none, { h with topics := updA h.topics k t' })

/-- `hub.PSub`, traced: like `Hub.SubT` on the pattern registry; when the
pattern is not yet registered, the matcher is also compiled and stored
(`h.regexps[pattern] = glob.MustCompile(pattern)`). -/
def Hub.PSubT (h : Hub) (p : String) : Option Nat × Option TopicErr × Hub :=
  match lookupA h.ptopics p with
  | some t =>
    match Topic.Sub t h.nextCh with
    | Except.ok (ch, t') =>
      (some ch, none,
        { h with ptopics := updA h.ptopics p t', nextCh := h.nextCh + 1 })
    | Except.error e => (none, some e, h)
  | none =>
    let t := NewTopic h.cancelled h.queueSize
    let rg := if h.regexps.contains p then h.regexps else h.regexps ++ [p]
    match Topic.Sub t h.nextCh with
    | Except.ok (ch, t') =>
      (some ch, none,
        { h with ptopics := updA (updA h.ptopics p t) p t', regexps := rg,
                 nextCh := h.nextCh + 1 })
    | Except.error e =>
      (none, some e, { h with ptopics := updA h.ptopics p t, regexps := rg })

/-- `hub.PUnsub`, traced: like `Hub.UnsubT` on the pattern registry.  Note
that when the pattern's topic is destroyed, only `ptopics` is updated: the
source never deletes from `regexps`. -/
def Hub.PUnsubT (h : Hub) (p : String) (ch : Nat) :
    Option (Option TopicErr × Hub) :=
  match lookupA h.ptopics p with
  | none => some (none, h)
  | some t =>
    match Topic.Unsub t ch with
    | (UnsubOutcome.panicked, _) => none
    | (UnsubOutcome.alreadyClosed, t') =>
      if Topic.SubLen t' = 0 then
        some (some TopicErr.alreadyClosed, { h with ptopics := delA h.ptopics p })
      else
        some (some TopicErr.alreadyClosed, { h with ptopics := updA h.ptopics p t' })
    | (UnsubOutcome.ok, t') =>
      if Topic.SubLen t' = 0 then
        some (none, { h with ptopics := delA h.ptopics p })
      else
        some (none, { h with ptopics := updA h.ptopics p t' })

/-- `hub.Close` with the cancellation cascade run to completion: the hub's
scope is cancelled, which cancels every registered topic's child scope; each
topic's watcher then closes its intake channel and all its subscriber
channels (`close(t.pubChan); t.unsubAll()`).  Messages still buffered in an
intake queue remain to be drained by the broadcast loop (to the cleared,
empty subscriber set).  The registry maps themselves are not touched by the
source's `Close`. -/
def Hub.Close (h : Hub) : Hub :=
  { h with
    cancelled := true
    topics := h.topics.map fun p => (p.1, Topic.watchFire (Topic.Close p.2))
    ptopics := h.ptopics.map fun p => (p.1, Topic.watchFire (Topic.Close p.2)) }

/-- Events of a hub execution: the public API plus the broadcast-loop
iterations of the registered topics (`tick k pat` runs one `deliver` on the
exact (`pat = false`) or pattern (`pat = true`) topic registered at `k`). -/
inductive HubEvt where
  | sub (k : String)
  | unsub (k : String) (ch : Nat)
  | psub (p : String)
  | punsub (p : String) (ch : Nat)
  | pub (k : String) (m : Msg)
  | close
  | tick (k : String) (pat : Bool)
deriving Repr, DecidableEq

/-- Apply one event to a hub.  `none` means the event is not a completed
step here (a blocked publish, a disabled broadcast iteration, or the panic
of an unknown-handle unsubscribe). -/
def applyH (h : Hub) (e : HubEvt) : Option Hub :=
  match e with
  | HubEvt.sub k => some (Hub.SubT h k).2.2
  | HubEvt.unsub k ch => (Hub.UnsubT h k ch).map fun r => r.2
  | HubEvt.psub p => some (Hub.PSubT h p).2.2
  | HubEvt.punsub p ch => (Hub.PUnsubT h p ch).map fun r => r.2
  | HubEvt.pub k m =>
    let r := Hub.PubT h k m
    if r.2.2 then none else some r.1
  | HubEvt.close => some (Hub.Close h)
  | HubEvt.tick k true =>
    match lookupA h.ptopics k with
    | none => none
    | some t =>
      (Topic.deliver t).map fun t' => { h with ptopics := updA h.ptopics k t' }
  | HubEvt.tick k false =>
    match lookupA h.topics k with
    | none => none
    | some t =>
      (Topic.deliver t).map fun t' => { h with topics := updA h.topics k t' }

/-- Run a list of events from a hub state. -/
def runH (h : Hub) : List HubEvt → Option Hub
  | [] => some h
  | e :: es =>
    match applyH h e with
    | none => none
    | some h' => runH h' es

/-- A hub with one pattern subscriber on `*` and no exact subscriber. -/
def hubPatOnly : Hub := (Hub.PSubT (NewHub 1) "*").2.2

/-- A hub with a pattern subscriber on `*` and an exact subscriber on `a`. -/
def hubBoth : Hub := (Hub.SubT (Hub.PSubT (NewHub 2) "*").2.2 "a").2.2

/-- A hub with one pattern subscriber on `p`. -/
def hubPs : Hub := (Hub.PSubT (NewHub 1) "p").2.2

/-- A hub that had an exact subscriber on `a` and was then closed. -/
def hubSubbedClosed : Hub := Hub.Close (Hub.SubT (NewHub 1) "a").2.2

/-- A freshly created hub that was closed immediately. -/
def hubClosedEmpty : Hub := Hub.Close (NewHub 1)

/-- The topic state reached by subscribing once, publishing `5`, and
unsubscribing, with intake capacity 1: the message is still buffered in the
intake queue when the only subscriber leaves. -/
def t9 : Topic :=
  { queueSize := 1
    pubChan := [5]
    pubChanClosed := false
    subChans := []
    chans := [(0,
      { cap := 1
        sent := []
        readCount := 0
        closed := true
        joinIdx := 0
        leftIdx := some 0
        joinPub := 0
        leftPub := some 1 })]
    cancelled := false
    fanHistory := []
    pubHistory := [5] }

/-- The topic state reached by subscribe, publish `5`, broadcast-deliver,
then unsubscribe, with intake capacity 1: the delivered message is in the
closed channel's stream. -/
def t9b : Topic :=
  { queueSize := 1
    pubChan := []
    pubChanClosed := false
    subChans := []
    chans := [(0,
      { cap := 1
        sent := [5]
        readCount := 0
        closed := true
        joinIdx := 0
        leftIdx := some 1
        joinPub := 0
        leftPub := some 1 })]
    cancelled := false
    fanHistory := [5]
    pubHistory := [5] }

/-- The single (closed) channel of `t9b`. -/
def c9b : ChanState :=
  { cap := 1
    sent := [5]
    readCount := 0
    closed := true
    joinIdx := 0
    leftIdx := some 1
    joinPub := 0
    leftPub := some 1 }

/-- Every open channel in the heap is a registered subscriber (equivalently:
a channel that has left the subscriber set is closed). -/
def OpenMem (t : Topic) : Prop :=
  ∀ ch c, (ch, c) ∈ t.chans → c.closed = false → ch ∈ t.subChans

/-- The registry invariant that holds while the hub has not been closed:
the hub scope is live and every registered topic (exact or pattern) has a
nonempty subscriber set. -/
def HubLive (h : Hub) : Prop :=
  h.cancelled = false ∧
  (∀ k t, (k, t) ∈ h.topics → t.subChans ≠ []) ∧
  (∀ k t, (k, t) ∈ h.ptopics → t.subChans ≠ [])

/-- Structural well-formedness of every reachable hub state: registered
patterns have a compiled matcher, channels outside a subscriber set are
closed, and registry keys are duplicate-free. -/
def HubWF (h : Hub) : Prop :=
  (∀ p t, (p, t) ∈ h.ptopics → p ∈ h.regexps) ∧
  (∀ k t, (k, t) ∈ h.topics → OpenMem t) ∧
  (∀ k t, (k, t) ∈ h.ptopics → OpenMem t) ∧
  (h.topics.map Prod.fst).Nodup ∧
  (h.ptopics.map Prod.fst).Nodup

/-- Invariant of every reachable state of one topic's execution, tying each
subscriber channel's send history to the topic's fan-out history.  The key
consequences: a live channel holds exactly the fan-out messages since it
joined; a closed channel holds exactly the fan-out messages of its
membership window; the fan-out history followed by the still-buffered intake
is exactly the publish history. -/
structure TInv (t : Topic) : Prop where
  keysRange : t.chans.map Prod.fst = List.range t.chans.length
  subsKeys : ∀ ch ∈ t.subChans, ch ∈ t.chans.map Prod.fst
  subsNodup : t.subChans.Nodup
  openIffSub : ∀ ch c, (ch, c) ∈ t.chans → (c.closed = false ↔ ch ∈ t.subChans)
  livePart : ∀ ch c, (ch, c) ∈ t.chans → c.closed = false →
    c.leftIdx = none ∧ c.leftPub = none ∧
    c.joinIdx ≤ t.fanHistory.length ∧ c.joinPub ≤ t.pubHistory.length ∧
    c.sent = t.fanHistory.drop c.joinIdx
  closedPart : ∀ ch c, (ch, c) ∈ t.chans → c.closed = true →
    ∃ L, c.leftIdx = some L ∧ c.joinIdx ≤ L ∧ L ≤ t.fanHistory.length ∧
      c.sent = (t.fanHistory.take L).drop c.joinIdx
  histEq : t.pubHistory = t.fanHistory ++ t.pubChan

/-- The per-subscriber delivery claim, rendered over complete observations:
in every reachable topic state, a subscriber channel that has been closed
(its stream is over, so its observation is final) contains, in publish
order, every message published between its subscription (`joinPub`) and its
unsubscription (`leftPub`).  `List.Sublist` is the weakest reading of
"every such message is observed, in publish order" (it does not even insist
on exactly-once). -/
def C9Claim : Prop :=
  ∀ qs : Nat, ∀ evts : List TEvt, ∀ t : Topic, ∀ ch : Nat, ∀ c : ChanState,
    ∀ L : Nat,
    runT (NewTopic false qs) evts = some t → (ch, c) ∈ t.chans →
    c.closed = true → c.leftPub = some L →
    ((t.pubHistory.take L).drop c.joinPub).Sublist c.sent

/-- The exact topic registered at `a` in `hubBoth`. -/
def wExact : Topic :=
  { queueSize := 2
    pubChan := []
    pubChanClosed := false
    subChans := [1]
    chans := [(1,
      { cap := 2, sent := [], readCount := 0, closed := false,
        joinIdx := 0, leftIdx := none, joinPub := 0, leftPub := none })]
    cancelled := false
    fanHistory := []
    pubHistory := [] }

/-- The pattern topic registered at `*` in `hubBoth`. -/
def wPat : Topic :=
  { queueSize := 2
    pubChan := []
    pubChanClosed := false
    subChans := [0]
    chans := [(0,
      { cap := 2, sent := [], readCount := 0, closed := false,
        joinIdx := 0, leftIdx := none, joinPub := 0, leftPub := none })]
    cancelled := false
    fanHistory := []
    pubHistory := [] }

/-- The (closed) topic registered at `a` in `hubSubbedClosed`. -/
def wClosedTopic : Topic :=
  { queueSize := 1
    pubChan := []
    pubChanClosed := true
    subChans := []
    chans := [(0,
      { cap := 1, sent := [], readCount := 0, closed := true,
        joinIdx := 0, leftIdx := some 0, joinPub := 0, leftPub := some 0 })]
    cancelled := true
    fanHistory := []
    pubHistory := [] }

/-- The topic registered at `a` in `hubW`. -/
def tW : Topic :=
  { queueSize := 1
    pubChan := []
    pubChanClosed := false
    subChans := [0]
    chans := [(0,
      { cap := 1, sent := [], readCount := 0, closed := false,
        joinIdx := 0, leftIdx := none, joinPub := 0, leftPub := none })]
    cancelled := false
    fanHistory := []
    pubHistory := [] }

/-- The hub reached from `NewHub 1` by `Sub "a"`. -/
def hubW : Hub :=
  { queueSize := 1
    topics := [("a", tW)]
    ptopics := []
    regexps := []
    cancelled := false
    nextCh := 1 }

/-! ## Association-list lemmas -/

theorem lookupA_eq_none_iff {κ α : Type} [DecidableEq κ]
    (l : List (κ × α)) (k : κ) :
    lookupA l k = none ↔ k ∉ l.map Prod.fst := by
  induction l with
  | nil => simp [lookupA]
  | cons p rest ih =>
    by_cases hp : p.1 = k
    · simp [lookupA, hp]
    · simp [lookupA, hp, ih, Ne.symm hp]

theorem lookupA_mem {κ α : Type} [DecidableEq κ]
    {l : List (κ × α)} {k : κ} {v : α} (h : lookupA l k = some v) :
    (k, v) ∈ l := by
  induction l with
  | nil => simp [lookupA] at h
  | cons p rest ih =>
    by_cases hp : p.1 = k
    · simp [lookupA, hp] at h
      subst hp
      simp [← h]
    · simp [lookupA, hp] at h
      exact List.mem_cons_of_mem _ (ih h)

theorem lookupA_of_mem_nodup {κ α : Type} [DecidableEq κ]
    {l : List (κ × α)} {k : κ} {v : α}
    (hnd : (l.map Prod.fst).Nodup) (hm : (k, v) ∈ l) :
    lookupA l k = some v := by
  induction l with
  | nil => simp at hm
  | cons p rest ih =>
    simp only [List.map_cons, List.nodup_cons] at hnd
    rcases List.mem_cons.mp hm with h | h
    · rw [← h]
      simp [lookupA]
    · have hk : k ∈ rest.map Prod.fst :=
        List.mem_map.mpr ⟨(k, v), h, rfl⟩
      have hp : p.1 ≠ k := fun he => hnd.1 (he ▸ hk)
      simp [lookupA, hp]
      exact ih hnd.2 h

theorem lookupA_map_replace {κ α : Type} [DecidableEq κ]
    (l : List (κ × α)) (k : κ) (v : α) :
    lookupA (l.map fun p => if p.1 = k then (k, v) else p) k =
      (lookupA l k).map fun _ => v := by
  induction l with
  | nil => simp [lookupA]
  | cons p rest ih =>
    by_cases hp : p.1 = k
    · simp [lookupA, hp]
    · simp [lookupA, hp, ih]

theorem lookupA_append_none {κ α : Type} [DecidableEq κ]
    {l1 : List (κ × α)} (l2 : List (κ × α)) {k : κ}
    (h : lookupA l1 k = none) :
    lookupA (l1 ++ l2) k = lookupA l2 k := by
  induction l1 with
  | nil => simp
  | cons p rest ih =>
    by_cases hp : p.1 = k
    · simp [lookupA, hp] at h
    · simp [lookupA, hp] at h ⊢
      exact ih h

theorem lookupA_updA_self {κ α : Type} [DecidableEq κ]
    (l : List (κ × α)) (k : κ) (v : α) :
    lookupA (updA l k v) k = some v := by
  unfold updA
  cases hl : lookupA l k with
  | none => rw [lookupA_append_none _ hl]; simp [lookupA]
  | some w => rw [lookupA_map_replace, hl]; rfl

theorem lookupA_map_replace_ne {κ α : Type} [DecidableEq κ]
    (l : List (κ × α)) (k : κ) (v : α) {k' : κ} (hne : k' ≠ k) :
    lookupA (l.map fun p => if p.1 = k then (k, v) else p) k' = lookupA l k' := by
  induction l with
  | nil => rfl
  | cons p rest ih =>
    by_cases hp : p.1 = k
    · have h1 : ¬((k : κ) = k') := fun he => hne he.symm
      have h2 : ¬(p.1 = k') := by rw [hp]; exact h1
      simp [lookupA, hp, h1, h2, ih]
    · by_cases hq : p.1 = k'
      · simp [lookupA, hp, hq, hne, ih]
      · simp [lookupA, hp, hq, ih]

theorem lookupA_append_singleton_ne {κ α : Type} [DecidableEq κ]
    (l : List (κ × α)) (k : κ) (v : α) {k' : κ} (hne : k' ≠ k) :
    lookupA (l ++ [(k, v)]) k' = lookupA l k' := by
  induction l with
  | nil =>
    have h1 : ¬((k : κ) = k') := fun he => hne he.symm
    simp [lookupA, h1]
  | cons p rest ih =>
    by_cases hp : p.1 = k'
    · simp [lookupA, hp]
    · simp [lookupA, hp, ih]

theorem lookupA_updA_ne {κ α : Type} [DecidableEq κ]
    (l : List (κ × α)) {k k' : κ} (v : α) (hne : k' ≠ k) :
    lookupA (updA l k v) k' = lookupA l k' := by
  unfold updA
  cases hl : lookupA l k with
  | none => exact lookupA_append_singleton_ne l k v hne
  | some w => exact lookupA_map_replace_ne l k v hne

theorem mem_updA {κ α : Type} [DecidableEq κ]
    {l : List (κ × α)} {k k' : κ} {v v' : α}
    (hm : (k', v') ∈ updA l k v) :
    (k' = k ∧ v' = v) ∨ ((k', v') ∈ l ∧ k' ≠ k) := by
  unfold updA at hm
  cases hl : lookupA l k with
  | none =>
    rw [hl] at hm
    rcases List.mem_append.mp hm with h | h
    · by_cases he : k' = k
      · subst he
        exact absurd (List.mem_map.mpr ⟨(k', v'), h, rfl⟩)
          ((lookupA_eq_none_iff l k').mp hl)
      · exact Or.inr ⟨h, he⟩
    · simp at h
      exact Or.inl ⟨h.1, h.2⟩
  | some w =>
    rw [hl] at hm
    rcases List.mem_map.mp hm with ⟨p, hp, he⟩
    by_cases hpk : p.1 = k
    · simp [hpk] at he
      exact Or.inl ⟨he.1.symm, he.2.symm⟩
    · simp [hpk] at he
      have hk1 : p.1 = k' := by rw [he]
      exact Or.inr ⟨he ▸ hp, fun hk => hpk (by rw [hk1, hk])⟩

theorem mem_delA {κ α : Type} [DecidableEq κ]
    {l : List (κ × α)} {k k' : κ} {v' : α}
    (hm : (k', v') ∈ delA l k) : (k', v') ∈ l := by
  exact (List.mem_filter.mp hm).1

theorem keys_updA_present {κ α : Type} [DecidableEq κ]
    {l : List (κ × α)} {k : κ} {w : α} (v : α) (hl : lookupA l k = some w) :
    (updA l k v).map Prod.fst = l.map Prod.fst := by
  unfold updA
  rw [hl]
  rw [List.map_map]
  apply List.map_congr_left
  intro p _
  by_cases hp : p.1 = k
  · simp [hp]
  · simp [hp]

theorem keys_updA_absent {κ α : Type} [DecidableEq κ]
    {l : List (κ × α)} {k : κ} (v : α) (hl : lookupA l k = none) :
    (updA l k v).map Prod.fst = l.map Prod.fst ++ [k] := by
  unfold updA
  rw [hl]
  simp

theorem keys_delA_sublist {κ α : Type} [DecidableEq κ]
    (l : List (κ × α)) (k : κ) :
    ((delA l k).map Prod.fst).Sublist (l.map Prod.fst) :=
  (List.filter_sublist l).map Prod.fst

theorem updA_id_of_lookup {κ α : Type} [DecidableEq κ]
    {l : List (κ × α)} {k : κ} {v : α}
    (hnd : (l.map Prod.fst).Nodup) (hl : lookupA l k = some v) :
    updA l k v = l := by
  unfold updA
  rw [hl]
  have hpt : ∀ p ∈ l, (if p.1 = k then (k, v) else p) = p := by
    intro p hp
    by_cases hpk : p.1 = k
    · have h2 : lookupA l p.1 = some p.2 := lookupA_of_mem_nodup hnd hp
      rw [hpk, hl] at h2
      simp only [Option.some.injEq] at h2
      cases p with
      | mk a b =>
        simp only at hpk
        simp [hpk, h2]
    · simp [hpk]
  rw [List.map_congr_left hpt]
  simp

/-! ## Basic facts about the topic operations -/

theorem Topic.Pub_preserves (t : Topic) (m : Msg) :
    (Topic.Pub t m).2.subChans = t.subChans ∧
    (Topic.Pub t m).2.chans = t.chans ∧
    (Topic.Pub t m).2.cancelled = t.cancelled := by
  unfold Topic.Pub
  split_ifs <;> simp

theorem Topic.deliver_preserves {t t' : Topic}
    (h : Topic.deliver t = some t') :
    t'.subChans = t.subChans ∧ t'.cancelled = t.cancelled ∧
    t'.chans = t.chans.map fun p =>
      if p.1 ∈ t.subChans then
        (p.1, { p.2 with sent := p.2.sent ++ [t.pubChan.head!] })
      else p := by
  unfold Topic.deliver at h
  cases hpc : t.pubChan with
  | nil => rw [hpc] at h; exact absurd h (by simp)
  | cons m rest =>
    rw [hpc] at h
    split_ifs at h
    simp only [Option.some.injEq] at h
    subst h
    simp [hpc]

theorem openMem_Pub (t : Topic) (m : Msg) (h : OpenMem t) :
    OpenMem (Topic.Pub t m).2 := by
  intro ch c hm ho
  rw [(Topic.Pub_preserves t m).2.1] at hm
  rw [(Topic.Pub_preserves t m).1]
  exact h ch c hm ho

theorem openMem_Sub {t t' : Topic} {fresh ch : Nat}
    (h : OpenMem t) (hs : Topic.Sub t fresh = Except.ok (ch, t')) :
    OpenMem t' := by
  unfold Topic.Sub at hs
  split_ifs at hs
  simp only [Except.ok.injEq, Prod.mk.injEq] at hs
  rcases hs with ⟨rfl, rfl⟩
  intro ch' c' hm ho
  simp only [List.mem_append] at hm
  rcases hm with hm | hm
  · exact List.mem_append.mpr (Or.inl (h ch' c' hm ho))
  · simp at hm
    simp [hm.1]

theorem openMem_Unsub (t : Topic) (ch : Nat) (h : OpenMem t) :
    OpenMem (Topic.Unsub t ch).2 := by
  unfold Topic.Unsub
  split_ifs with hc hm
  · exact h
  · intro ch' c' hmem ho
    simp only [Topic.closeChan] at hmem
    rcases List.mem_map.mp hmem with ⟨p, hp, he⟩
    by_cases hpk : p.1 = ch
    · simp only [hpk, if_true, Prod.mk.injEq] at he
      rw [← he.2] at ho
      simp at ho
    · simp only [hpk, if_false] at he
      subst he
      have h1 : ch' ∈ t.subChans := h ch' c' hp ho
      simp only at hpk
      exact (List.mem_erase_of_ne hpk).mpr h1
  · exact h

theorem openMem_deliver {t t' : Topic} (h : OpenMem t)
    (hd : Topic.deliver t = some t') : OpenMem t' := by
  intro ch c hm ho
  rw [(Topic.deliver_preserves hd).1]
  rw [(Topic.deliver_preserves hd).2.2] at hm
  rcases List.mem_map.mp hm with ⟨p, hp, he⟩
  by_cases hpk : p.1 ∈ t.subChans
  · simp only [hpk, if_true, Prod.mk.injEq] at he
    rw [← he.1]
    exact hpk
  · simp only [hpk, if_false] at he
    subst he
    exact h ch c hp ho

theorem openMem_Close (t : Topic) (h : OpenMem t) :
    OpenMem (Topic.Close t) := h

theorem allClosed_watchFire (t : Topic) (h : OpenMem t) :
    ∀ ch c, (ch, c) ∈ (Topic.watchFire (Topic.Close t)).chans →
      c.closed = true := by
  intro ch c hm
  simp only [Topic.watchFire, Topic.Close] at hm
  rcases List.mem_map.mp hm with ⟨p, hp, he⟩
  by_cases hpk : p.1 ∈ t.subChans
  · simp only [hpk, if_true, Prod.mk.injEq] at he
    rw [← he.2]
  · simp only [hpk, if_false] at he
    subst he
    by_cases hcl : c.closed = true
    · exact hcl
    · exact absurd (h ch c hp (by simp at hcl; exact hcl)) hpk

/-! ## C2 — unsubscribing an unknown or already-removed handle -/

/-- C2: the claim says `Topic.Unsub` on a channel not in the subscriber set
(unknown handle, or double unsubscribe) is a success no-op.  The code
instead evaluates `t.subChans[ch]` to the nil channel and calls
`close(nil)`, a runtime panic.  This theorem evaluates the code at both
failing inputs: a double unsubscribe (channel `0` removed once already) and
a never-subscribed handle (`5`), each yielding the panic outcome (with the
topic state unchanged at the moment of the panic). -/
theorem unsub_unknown_handle_panics :
    ((runT (NewTopic false 1) [TEvt.sub, TEvt.unsub 0]).map fun t =>
      (Topic.Unsub t 0).1) = some UnsubOutcome.panicked ∧
    ((runT (NewTopic false 1) [TEvt.sub]).map fun t =>
      (Topic.Unsub t 5).1) = some UnsubOutcome.panicked ∧
    ((runT (NewTopic false 1) [TEvt.sub, TEvt.unsub 0]).map fun t =>
      (Topic.Unsub t 0).2) = runT (NewTopic false 1) [TEvt.sub, TEvt.unsub 0] := by
  exact ⟨rfl, rfl, rfl⟩

/-! ## C6 — Topic.Pub error behaviour -/

/-- C6: `Topic.Pub msg` returns `AlreadyClosed` exactly when the topic's
scope is already cancelled at the time of the call, and then leaves the
intake queue unchanged; otherwise, with space available it enqueues the
message and returns no error, and with the queue full it blocks (does not
fail) leaving the state unchanged until the send can complete. -/
theorem topic_pub_already_closed_iff (t : Topic) (m : Msg) :
    ((Topic.Pub t m).1 = PubOutcome.alreadyClosed ↔ t.cancelled = true) ∧
    (t.cancelled = true → (Topic.Pub t m).2 = t) ∧
    (t.cancelled = false → t.pubChan.length < t.queueSize →
      (Topic.Pub t m).1 = PubOutcome.enqueued ∧
      (Topic.Pub t m).2.pubChan = t.pubChan ++ [m]) ∧
    (t.cancelled = false → ¬(t.pubChan.length < t.queueSize) →
      (Topic.Pub t m).1 = PubOutcome.blocked ∧ (Topic.Pub t m).2 = t) := by
  by_cases hc : t.cancelled = true
  · simp [Topic.Pub, hc]
  · by_cases hq : t.pubChan.length < t.queueSize
    · simp [Topic.Pub, hc, hq]
    · simp [Topic.Pub, hc, hq]

/-- Witness for C6 at concrete inputs: a live topic with space enqueues,
and a cancelled topic rejects with its queue unchanged. -/
theorem topic_pub_already_closed_iff_witness :
    ((Topic.Pub (NewTopic false 2) 9).1 = PubOutcome.enqueued ∧
      (Topic.Pub (NewTopic false 2) 9).2.pubChan =
        (NewTopic false 2).pubChan ++ [9]) ∧
    (Topic.Pub (NewTopic true 2) 9).2 = NewTopic true 2 :=
  ⟨(topic_pub_already_closed_iff (NewTopic false 2) 9).2.2.1 rfl (by decide),
   (topic_pub_already_closed_iff (NewTopic true 2) 9).2.1 rfl⟩

/-! ## C8 — Topic.Sub allocation behaviour -/

/-- C8: on a live topic, `Topic.Sub` allocates a new bounded output queue
whose capacity is the intake queue's capacity (`cap(t.pubChan)`, the hub's
configured `queueSize`), registers it in the subscriber set under its own
identity, and returns it; on a cancelled topic it fails with
`AlreadyClosed` and registers nothing.  The freshness hypothesis is the Go
runtime's guarantee that a newly made channel is distinct from every
existing one. -/
theorem topic_sub_allocates_queue (t : Topic) (fresh : Nat)
    (hf : fresh ∉ t.chans.map Prod.fst) :
    (t.cancelled = true →
      Topic.Sub t fresh = Except.error TopicErr.alreadyClosed) ∧
    (t.cancelled = false →
      ∃ t', Topic.Sub t fresh = Except.ok (fresh, t') ∧
        lookupA t'.chans fresh = some
          { cap := t.queueSize, sent := [], readCount := 0, closed := false,
            joinIdx := t.fanHistory.length, leftIdx := none,
            joinPub := t.pubHistory.length, leftPub := none } ∧
        t'.subChans = t.subChans ++ [fresh] ∧
        t'.pubChan = t.pubChan) ∧
    (∀ pc qs, (NewTopic pc qs).queueSize = qs) := by
  refine ⟨fun hc => by simp [Topic.Sub, hc], fun hc => ?_, fun pc qs => rfl⟩
  refine ⟨{ t with
      subChans := t.subChans ++ [fresh]
      chans := t.chans ++ [(fresh,
        { cap := t.queueSize, sent := [], readCount := 0, closed := false,
          joinIdx := t.fanHistory.length, leftIdx := none,
          joinPub := t.pubHistory.length, leftPub := none })] },
    by simp [Topic.Sub, hc], ?_, rfl, rfl⟩
  show lookupA (t.chans ++ [(fresh, _)]) fresh = _
  rw [lookupA_append_none _ ((lookupA_eq_none_iff _ _).mpr hf)]
  simp [lookupA]

/-- Witness for C8 on a fresh topic with queue size 3. -/
theorem topic_sub_allocates_queue_witness :
    ∃ t', Topic.Sub (NewTopic false 3) 0 = Except.ok (0, t') ∧
      lookupA t'.chans 0 = some
        { cap := (NewTopic false 3).queueSize, sent := [], readCount := 0,
          closed := false, joinIdx := (NewTopic false 3).fanHistory.length,
          leftIdx := none, joinPub := (NewTopic false 3).pubHistory.length,
          leftPub := none } ∧
      t'.subChans = (NewTopic false 3).subChans ++ [0] ∧
      t'.pubChan = (NewTopic false 3).pubChan :=
  (topic_sub_allocates_queue (NewTopic false 3) 0 (by decide)).2.1 rfl

/-! ## C10 — Sub/PSub on a closed hub still inserts a topic -/

/-- C10: after the hub's scope is cancelled, `hub.Sub` (resp. `hub.PSub`)
for an unregistered key creates a topic with `NewTopic(h.ctx, ...)` — whose
child scope is already cancelled — registers it, then calls `Topic.Sub`,
which fails with `AlreadyClosed`; the error is discarded (`ch, _ :=`), the
nil stream is returned, and the freshly created, already-cancelled,
zero-subscriber topic stays in the registry. -/
theorem sub_after_close_inserts_topic (h : Hub) (k p : String)
    (hc : h.cancelled = true) (hk : lookupA h.topics k = none)
    (hp : lookupA h.ptopics p = none) :
    (Hub.SubT h k).1 = none ∧
    (Hub.SubT h k).2.1 = some TopicErr.alreadyClosed ∧
    lookupA (Hub.SubT h k).2.2.topics k = some (NewTopic true h.queueSize) ∧
    (NewTopic true h.queueSize).cancelled = true ∧
    Topic.SubLen (NewTopic true h.queueSize) = 0 ∧
    (Hub.PSubT h p).1 = none ∧
    lookupA (Hub.PSubT h p).2.2.ptopics p = some (NewTopic true h.queueSize) := by
  unfold Hub.SubT Hub.PSubT
  rw [hk, hp, hc]
  simp [Topic.Sub, NewTopic, Topic.SubLen, lookupA_updA_self]

/-- Witness for C10: the freshly closed hub, subscribing to `a` and
pattern-subscribing to `q`. -/
theorem sub_after_close_inserts_topic_witness :
    (Hub.SubT hubClosedEmpty "a").1 = none ∧
    (Hub.SubT hubClosedEmpty "a").2.1 = some TopicErr.alreadyClosed ∧
    lookupA (Hub.SubT hubClosedEmpty "a").2.2.topics "a" =
      some (NewTopic true hubClosedEmpty.queueSize) ∧
    (NewTopic true hubClosedEmpty.queueSize).cancelled = true ∧
    Topic.SubLen (NewTopic true hubClosedEmpty.queueSize) = 0 ∧
    (Hub.PSubT hubClosedEmpty "q").1 = none ∧
    lookupA (Hub.PSubT hubClosedEmpty "q").2.2.ptopics "q" =
      some (NewTopic true hubClosedEmpty.queueSize) :=
  sub_after_close_inserts_topic hubClosedEmpty "a" "q" rfl rfl rfl

/-! ## C1 — counterexample: pattern delivery requires an exact topic -/

/-- C1 counterexample: in `hubPatOnly` the pattern `*` is registered with
one live subscriber and its compiled matcher accepts the topic string `a`,
but no exact topic `a` exists; `hub.Pub` then returns at the
`t, ok := h.topics[topic]; if !ok { return }` early exit, leaving the hub —
in particular the pattern topic's intake queue and publish history —
completely unchanged.  The message is dropped, contradicting the claim that
pattern delivery is independent of the existence of an exact topic. -/
theorem pub_pattern_only_not_delivered_cex :
    globMatch "*" "a" = true ∧
    lookupA hubPatOnly.topics "a" = none ∧
    (∃ pt, lookupA hubPatOnly.ptopics "*" = some pt ∧ Topic.SubLen pt = 1) ∧
    Hub.Pub hubPatOnly "a" 7 = hubPatOnly := by
  exact ⟨rfl, rfl, ⟨_, rfl, rfl⟩, rfl⟩

/-! ## C3 — counterexample: Close leaves empty topics registered -/

/-- C3 counterexample: the state reached by `Sub "a"` followed by `Close`
(with the cancellation cascade complete) still has the topic registered
under `"a"` while its subscriber count is `0` — the claimed
present-iff-has-subscriber invariant fails once `Close` is among the
operations. -/
theorem registry_invariant_close_cex :
    ((runH (NewHub 1) [HubEvt.sub "a", HubEvt.close]).map fun h =>
      h.topics.map fun q => (q.1, Topic.SubLen q.2)) = some [("a", 0)] := by
  rfl

/-! ## C4 — counterexample: PUnsub never removes the compiled matcher -/

/-- C4 counterexample: destroying pattern `p`'s topic via `PUnsub` deletes
it from `ptopics` but leaves the compiled matcher registered: the source
has `delete(h.ptopics, pattern)` and no delete on `h.regexps`, so the two
key sets differ afterwards. -/
theorem matcher_registry_leak_cex :
    ((Hub.PUnsubT hubPs "p" 0).map fun r => (r.2.ptopics, r.2.regexps)) =
      some ([], ["p"]) := by
  rfl

/-! ## C5 — counterexample: the hub swallows Topic errors -/

/-- C5 counterexample: on the closed hub `hubSubbedClosed` the delegated
`Topic.Sub` produces the `AlreadyClosed` error, which `hub.Sub` binds to
`_` and drops, returning only the nil stream; likewise `hub.Pub` drops the
`AlreadyClosed` from `t.Pub(msg)` (`_ = t.Pub(msg)`) and returns nothing.
The discarded-error traces are nonempty, refuting "errors are returned to
the immediate caller; the core never swallows an error silently". -/
theorem hub_swallows_errors_cex :
    (Hub.SubT hubSubbedClosed "a").2.1 = some TopicErr.alreadyClosed ∧
    (Hub.SubT hubSubbedClosed "a").1 = none ∧
    (Hub.PubT hubSubbedClosed "a" 3).2.1 = [TopicErr.alreadyClosed] ∧
    Hub.Pub hubSubbedClosed "a" 3 = hubSubbedClosed := by
  exact ⟨rfl, rfl, rfl, rfl⟩

/-! ## C7 — counterexample: Sub after Close is not a no-op -/

/-- C7 counterexample: on a closed hub, `Sub "a"` neither returns the
`AlreadyClosed` error to its caller (the stream is nil and the error slot of
the public signature does not exist; the traced error is discarded) nor is
a no-op: it inserts a fresh, already-cancelled, empty topic into the
registry. -/
theorem close_then_sub_not_noop_cex :
    (Hub.SubT hubClosedEmpty "a").1 = none ∧
    hubClosedEmpty.topics = [] ∧
    (Hub.SubT hubClosedEmpty "a").2.2.topics = [("a", NewTopic true 1)] := by
  exact ⟨rfl, rfl, rfl⟩

/-! ## C9 — counterexample: a message still in the intake queue at
unsubscribe time is never observed -/

/-- C9 counterexample: subscribe, publish `5` (accepted into the intake
queue), then unsubscribe before the broadcast loop runs.  The subscriber's
channel is closed with an empty send history, yet message `5` was published
after its subscription (`joinPub = 0`) and before its unsubscription
(`leftPub = 1`).  Once a channel is closed it receives nothing more, so the
message is lost: the per-subscriber delivery claim is false. -/
theorem fifo_claim_false_cex : ¬C9Claim := by
  intro hcl
  have hrun : runT (NewTopic false 1) [TEvt.sub, TEvt.pub 5, TEvt.unsub 0] =
      some t9 := by rfl
  have hs := hcl 1 [TEvt.sub, TEvt.pub 5, TEvt.unsub 0] t9 0
    { cap := 1, sent := [], readCount := 0, closed := true, joinIdx := 0,
      leftIdx := some 0, joinPub := 0, leftPub := some 1 } 1
    hrun (by decide) rfl rfl
  have hl := hs.length_le
  simp at hl
  simp [t9] at hl

/-! ## C1 — amended routing theorem -/

/-- C1 amended: `hub.Pub` delivers to the matching pattern topics only when
an exact-match topic for the string exists.  With no exact topic registered
the call returns immediately and changes nothing; with an exact topic
present, every registered pattern whose compiled matcher accepts the topic
string has the message enqueued onto its topic's intake queue (shown here
for a live pattern topic with queue space; a blocked or closed delegate
follows `Topic.Pub`). -/
theorem pub_routing_amended (h : Hub) (k : String) (m : Msg) :
    (lookupA h.topics k = none → Hub.Pub h k m = h) ∧
    (∀ t p pt, lookupA h.topics k = some t → (p, pt) ∈ h.ptopics →
      h.regexps.contains p = true → globMatch p k = true →
      pt.cancelled = false → pt.pubChan.length < pt.queueSize →
      (p, { pt with pubChan := pt.pubChan ++ [m],
                    pubHistory := pt.pubHistory ++ [m] }) ∈
        (Hub.Pub h k m).ptopics) := by
  constructor
  · intro hk
    unfold Hub.Pub Hub.PubT
    rw [hk]
  · intro t p pt hk hm hr hg hc hq
    unfold Hub.Pub Hub.PubT
    rw [hk]
    simp only
    apply List.mem_map.mpr
    refine ⟨(p, pt), hm, ?_⟩
    have hr2 : p ∈ h.regexps := by
      simpa using hr
    simp [hr, hr2, hg, Topic.Pub, hc, hq]

/-- Witness for C1 amended on `hubBoth`: publishing `9` to `a` reaches the
pattern topic of `*`. -/
theorem pub_routing_amended_witness :
    ("*", { wPat with pubChan := wPat.pubChan ++ [9],
                      pubHistory := wPat.pubHistory ++ [9] }) ∈
      (Hub.Pub hubBoth "a" 9).ptopics :=
  (pub_routing_amended hubBoth "a" 9).2 wExact "*" wPat rfl (by decide)
    rfl rfl rfl (by decide)

/-! ## C5 — amended error-propagation theorem -/

/-- C5 amended: errors returned by the delegated Topic operations are
discarded inside the hub, not returned: the caller-visible result of
`hub.Sub` carries no error value (failure is observable only as the nil
stream, returned exactly when the delegated `Topic.Sub` errored), and
`hub.Pub` returns nothing at all even when the delegated `Topic.Pub`
produced `AlreadyClosed` (the discarded-error trace is then nonempty).
Errors of direct Topic operations are returned to their caller. -/
theorem hub_error_discard_amended (h : Hub) (k : String) :
    ((Hub.SubT h k).1 = none ↔
      (Hub.SubT h k).2.1 = some TopicErr.alreadyClosed) ∧
    (∀ m t, lookupA h.topics k = some t → t.cancelled = true →
      (Hub.PubT h k m).2.1 ≠ []) := by
  constructor
  · unfold Hub.SubT
    cases hl : lookupA h.topics k with
    | some t =>
      by_cases hc : t.cancelled = true
      · simp [Topic.Sub, hc]
      · simp [Topic.Sub, hc]
    | none =>
      by_cases hc : h.cancelled = true
      · simp [Topic.Sub, NewTopic, hc]
      · simp [Topic.Sub, NewTopic, hc]
  · intro m t hl hc
    unfold Hub.PubT
    rw [hl]
    simp [Topic.Pub, hc]

/-- Witness for C5 amended on the closed hub `hubSubbedClosed`. -/
theorem hub_error_discard_amended_witness :
    ((Hub.SubT hubSubbedClosed "a").1 = none ↔
      (Hub.SubT hubSubbedClosed "a").2.1 = some TopicErr.alreadyClosed) ∧
    (Hub.PubT hubSubbedClosed "a" 3).2.1 ≠ [] :=
  ⟨(hub_error_discard_amended hubSubbedClosed "a").1,
   (hub_error_discard_amended hubSubbedClosed "a").2 3 wClosedTopic rfl rfl⟩

/-! ## Shape lemmas for the hub invariants -/

theorem Topic.Sub_ok_shape {t t' : Topic} {fresh ch : Nat}
    (hs : Topic.Sub t fresh = Except.ok (ch, t')) :
    t.cancelled = false ∧ ch = fresh ∧
    t' = { t with
      subChans := t.subChans ++ [fresh]
      chans := t.chans ++ [(fresh,
        { cap := t.queueSize, sent := [], readCount := 0, closed := false,
          joinIdx := t.fanHistory.length, leftIdx := none,
          joinPub := t.pubHistory.length, leftPub := none })] } := by
  unfold Topic.Sub at hs
  split_ifs at hs with hc
  · simp only [Except.ok.injEq, Prod.mk.injEq] at hs
    exact ⟨by simp [hc], hs.1.symm, hs.2.symm⟩

theorem Topic.Sub_error_iff (t : Topic) (fresh : Nat) {e : TopicErr} :
    Topic.Sub t fresh = Except.error e ↔ t.cancelled = true := by
  unfold Topic.Sub
  split_ifs with hc
  · cases e
    simp [hc]
  · simp only [reduceCtorEq, false_iff]
    simpa using hc

theorem Topic.Unsub_cancelled_eq (t : Topic) (ch : Nat) :
    (Topic.Unsub t ch).2.cancelled = t.cancelled := by
  unfold Topic.Unsub Topic.closeChan
  split_ifs <;> rfl

theorem nodup_keys_updA {κ α : Type} [DecidableEq κ]
    {l : List (κ × α)} {k : κ} (v : α)
    (hnd : (l.map Prod.fst).Nodup) : ((updA l k v).map Prod.fst).Nodup := by
  cases hl : lookupA l k with
  | some w => rw [keys_updA_present v hl]; exact hnd
  | none =>
    rw [keys_updA_absent v hl]
    refine List.Nodup.append hnd (List.nodup_singleton k) ?_
    intro a ha hb
    simp at hb
    exact (lookupA_eq_none_iff l k).mp hl (hb ▸ ha)

theorem nodup_keys_delA {κ α : Type} [DecidableEq κ]
    {l : List (κ × α)} (k : κ)
    (hnd : (l.map Prod.fst).Nodup) : ((delA l k).map Prod.fst).Nodup :=
  (keys_delA_sublist l k).nodup hnd

theorem keys_map_pointwise {κ α : Type}
    (l : List (κ × α)) (f : κ × α → α) :
    ((l.map fun p => (p.1, f p)).map Prod.fst) = l.map Prod.fst := by
  rw [List.map_map]
  apply List.map_congr_left
  intro p _
  rfl

/-! ## The no-Close registry invariant (C3) -/

theorem hubLive_applyH {h h' : Hub} {e : HubEvt} (hl : HubLive h)
    (hne : e ≠ HubEvt.close) (hs : applyH h e = some h') : HubLive h' := by
  obtain ⟨hc, hT, hP⟩ := hl
  cases e with
  | close => exact absurd rfl hne
  | sub k =>
    simp only [applyH, Option.some.injEq] at hs
    subst hs
    cases hlk : lookupA h.topics k with
    | some t =>
      cases hsub : Topic.Sub t h.nextCh with
      | error e2 =>
        simp only [Hub.SubT, hlk, hsub]
        exact ⟨hc, hT, hP⟩
      | ok pr =>
        obtain ⟨ch, t'⟩ := pr
        simp only [Hub.SubT, hlk, hsub]
        obtain ⟨-, -, rfl⟩ := Topic.Sub_ok_shape hsub
        refine ⟨hc, ?_, hP⟩
        intro k2 t2 hm
        rcases mem_updA hm with ⟨rfl, rfl⟩ | ⟨hm2, -⟩
        · simp
        · exact hT _ _ hm2
    | none =>
      cases hsub : Topic.Sub (NewTopic h.cancelled h.queueSize) h.nextCh with
      | error e2 =>
        rw [Topic.Sub_error_iff] at hsub
        rw [hc] at hsub
        simp [NewTopic] at hsub
      | ok pr =>
        obtain ⟨ch, t'⟩ := pr
        simp only [Hub.SubT, hlk, hsub]
        obtain ⟨-, -, rfl⟩ := Topic.Sub_ok_shape hsub
        refine ⟨hc, ?_, hP⟩
        intro k2 t2 hm
        rcases mem_updA hm with ⟨rfl, rfl⟩ | ⟨hm2, hne2⟩
        · simp
        · rcases mem_updA hm2 with ⟨he, -⟩ | ⟨hm3, -⟩
          · exact absurd he hne2
          · exact hT _ _ hm3
  | unsub k ch =>
    simp only [applyH] at hs
    cases hlk : lookupA h.topics k with
    | none =>
      simp only [Hub.UnsubT, hlk, Option.map_some', Option.some.injEq] at hs
      subst hs
      exact ⟨hc, hT, hP⟩
    | some t =>
      simp only [Hub.UnsubT, hlk] at hs
      cases hu : Topic.Unsub t ch with
      | mk o t' =>
        rw [hu] at hs
        cases o with
        | panicked => simp at hs
        | alreadyClosed =>
          by_cases hz : Topic.SubLen t' = 0
          · simp only [hz, if_true, Option.map_some', Option.some.injEq] at hs
            subst hs
            exact ⟨hc, fun k2 t2 hm => hT _ _ (mem_delA hm), hP⟩
          · simp only [hz, if_false, Option.map_some', Option.some.injEq] at hs
            subst hs
            refine ⟨hc, ?_, hP⟩
            intro k2 t2 hm
            rcases mem_updA hm with ⟨rfl, rfl⟩ | ⟨hm2, -⟩
            · intro hnil
              exact hz (by simp [Topic.SubLen, hnil])
            · exact hT _ _ hm2
        | ok =>
          by_cases hz : Topic.SubLen t' = 0
          · simp only [hz, if_true, Option.map_some', Option.some.injEq] at hs
            subst hs
            exact ⟨hc, fun k2 t2 hm => hT _ _ (mem_delA hm), hP⟩
          · simp only [hz, if_false, Option.map_some', Option.some.injEq] at hs
            subst hs
            refine ⟨hc, ?_, hP⟩
            intro k2 t2 hm
            rcases mem_updA hm with ⟨rfl, rfl⟩ | ⟨hm2, -⟩
            · intro hnil
              exact hz (by simp [Topic.SubLen, hnil])
            · exact hT _ _ hm2
  | psub p =>
    simp only [applyH, Option.some.injEq] at hs
    subst hs
    cases hlk : lookupA h.ptopics p with
    | some t =>
      cases hsub : Topic.Sub t h.nextCh with
      | error e2 =>
        simp only [Hub.PSubT, hlk, hsub]
        exact ⟨hc, hT, hP⟩
      | ok pr =>
        obtain ⟨ch, t'⟩ := pr
        simp only [Hub.PSubT, hlk, hsub]
        obtain ⟨-, -, rfl⟩ := Topic.Sub_ok_shape hsub
        refine ⟨hc, hT, ?_⟩
        intro k2 t2 hm
        rcases mem_updA hm with ⟨rfl, rfl⟩ | ⟨hm2, -⟩
        · simp
        · exact hP _ _ hm2
    | none =>
      cases hsub : Topic.Sub (NewTopic h.cancelled h.queueSize) h.nextCh with
      | error e2 =>
        rw [Topic.Sub_error_iff] at hsub
        rw [hc] at hsub
        simp [NewTopic] at hsub
      | ok pr =>
        obtain ⟨ch, t'⟩ := pr
        simp only [Hub.PSubT, hlk, hsub]
        obtain ⟨-, -, rfl⟩ := Topic.Sub_ok_shape hsub
        refine ⟨hc, hT, ?_⟩
        intro k2 t2 hm
        rcases mem_updA hm with ⟨rfl, rfl⟩ | ⟨hm2, hne2⟩
        · simp
        · rcases mem_updA hm2 with ⟨he, -⟩ | ⟨hm3, -⟩
          · exact absurd he hne2
          · exact hP _ _ hm3
  | punsub p ch =>
    simp only [applyH] at hs
    cases hlk : lookupA h.ptopics p with
    | none =>
      simp only [Hub.PUnsubT, hlk, Option.map_some', Option.some.injEq] at hs
      subst hs
      exact ⟨hc, hT, hP⟩
    | some t =>
      simp only [Hub.PUnsubT, hlk] at hs
      cases hu : Topic.Unsub t ch with
      | mk o t' =>
        rw [hu] at hs
        cases o with
        | panicked => simp at hs
        | alreadyClosed =>
          by_cases hz : Topic.SubLen t' = 0
          · simp only [hz, if_true, Option.map_some', Option.some.injEq] at hs
            subst hs
            exact ⟨hc, hT, fun k2 t2 hm => hP _ _ (mem_delA hm)⟩
          · simp only [hz, if_false, Option.map_some', Option.some.injEq] at hs
            subst hs
            refine ⟨hc, hT, ?_⟩
            intro k2 t2 hm
            rcases mem_updA hm with ⟨rfl, rfl⟩ | ⟨hm2, -⟩
            · intro hnil
              exact hz (by simp [Topic.SubLen, hnil])
            · exact hP _ _ hm2
        | ok =>
          by_cases hz : Topic.SubLen t' = 0
          · simp only [hz, if_true, Option.map_some', Option.some.injEq] at hs
            subst hs
            exact ⟨hc, hT, fun k2 t2 hm => hP _ _ (mem_delA hm)⟩
          · simp only [hz, if_false, Option.map_some', Option.some.injEq] at hs
            subst hs
            refine ⟨hc, hT, ?_⟩
            intro k2 t2 hm
            rcases mem_updA hm with ⟨rfl, rfl⟩ | ⟨hm2, -⟩
            · intro hnil
              exact hz (by simp [Topic.SubLen, hnil])
            · exact hP _ _ hm2
  | pub k m =>
    simp only [applyH] at hs
    by_cases hb : (Hub.PubT h k m).2.2 = true
    · simp [hb] at hs
    · rw [Bool.not_eq_true] at hb
      simp only [hb, Bool.false_eq_true, if_false, Option.some.injEq] at hs
      subst hs
      unfold Hub.PubT
      cases hlk : lookupA h.topics k with
      | none => exact ⟨hc, hT, hP⟩
      | some t =>
        refine ⟨hc, ?_, ?_⟩
        · intro k2 t2 hm
          rcases mem_updA hm with ⟨rfl, rfl⟩ | ⟨hm2, -⟩
          · rw [(Topic.Pub_preserves t m).1]
            exact hT _ _ (lookupA_mem hlk)
          · exact hT _ _ hm2
        · intro k2 t2 hm
          rcases List.mem_map.mp hm with ⟨pe, hpe, he⟩
          by_cases hhit : (h.regexps.contains pe.1 && globMatch pe.1 k) = true
          · simp only [hhit, if_true, Prod.mk.injEq] at he
            rw [← he.2, (Topic.Pub_preserves pe.2 m).1]
            exact hP pe.1 pe.2 hpe
          · simp only [hhit, if_false] at he
            subst he
            exact hP _ _ hpe
  | tick k pat =>
    cases pat with
    | true =>
      simp only [applyH] at hs
      cases hlk : lookupA h.ptopics k with
      | none =>
        simp only [hlk] at hs
        exact Option.noConfusion hs
      | some t =>
        simp only [hlk] at hs
        cases hd : Topic.deliver t with
        | none =>
          simp only [hd, Option.map_none'] at hs
          exact Option.noConfusion hs
        | some t' =>
          simp only [hd, Option.map_some', Option.some.injEq] at hs
          subst hs
          refine ⟨hc, hT, ?_⟩
          intro k2 t2 hm
          rcases mem_updA hm with ⟨rfl, rfl⟩ | ⟨hm2, -⟩
          · rw [(Topic.deliver_preserves hd).1]
            exact hP _ _ (lookupA_mem hlk)
          · exact hP _ _ hm2
    | false =>
      simp only [applyH] at hs
      cases hlk : lookupA h.topics k with
      | none =>
        simp only [hlk] at hs
        exact Option.noConfusion hs
      | some t =>
        simp only [hlk] at hs
        cases hd : Topic.deliver t with
        | none =>
          simp only [hd, Option.map_none'] at hs
          exact Option.noConfusion hs
        | some t' =>
          simp only [hd, Option.map_some', Option.some.injEq] at hs
          subst hs
          refine ⟨hc, ?_, hP⟩
          intro k2 t2 hm
          rcases mem_updA hm with ⟨rfl, rfl⟩ | ⟨hm2, -⟩
          · rw [(Topic.deliver_preserves hd).1]
            exact hT _ _ (lookupA_mem hlk)
          · exact hT _ _ hm2

theorem hubLive_runH {evts : List HubEvt} {h0 h : Hub} (hl : HubLive h0)
    (hnc : ∀ e2 ∈ evts, e2 ≠ HubEvt.close) (hr : runH h0 evts = some h) :
    HubLive h := by
  induction evts generalizing h0 with
  | nil =>
    simp only [runH, Option.some.injEq] at hr
    subst hr
    exact hl
  | cons e es ih =>
    simp only [runH] at hr
    cases ha : applyH h0 e with
    | none => rw [ha] at hr; exact Option.noConfusion hr
    | some h1 =>
      rw [ha] at hr
      exact ih (hubLive_applyH hl (hnc e (List.mem_cons_self e es)) ha)
        (fun e2 he2 => hnc e2 (List.mem_cons_of_mem e he2)) hr

/-- C3 amended: in every hub state reachable from `NewHub` by any sequence
of `Sub`, `Unsub`, `PSub`, `PUnsub`, `Pub` and internal broadcast steps —
but no `Close` — every topic present in either registry map has at least
one live subscriber (eager removal keeps the registries free of empty
topics).  `Close` breaks the claimed iff, see the counterexample. -/
theorem registry_invariant_no_close (qs : Nat) (evts : List HubEvt) (h : Hub)
    (hr : runH (NewHub qs) evts = some h)
    (hnc : ∀ e ∈ evts, e ≠ HubEvt.close) :
    ∀ k t, ((k, t) ∈ h.topics ∨ (k, t) ∈ h.ptopics) → 1 ≤ Topic.SubLen t := by
  have hl0 : HubLive (NewHub qs) := by
    refine ⟨rfl, ?_, ?_⟩ <;> intro k t hm <;> simp [NewHub] at hm
  have hl := hubLive_runH hl0 hnc hr
  intro k t hm
  have hne : t.subChans ≠ [] := by
    rcases hm with hm | hm
    · exact hl.2.1 k t hm
    · exact hl.2.2 k t hm
  have : t.subChans.length ≠ 0 := fun hz => hne (List.length_eq_zero.mp hz)
  unfold Topic.SubLen
  omega

/-- Witness for C3 amended: after `Sub "a"` on a fresh hub, the registered
topic has one subscriber. -/
theorem registry_invariant_no_close_witness : 1 ≤ Topic.SubLen tW :=
  registry_invariant_no_close 1 [HubEvt.sub "a"] hubW rfl
    (by intro e he; simp at he; subst he; exact HubEvt.noConfusion)
    "a" tW (Or.inl (by simp [hubW]))

/-! ## The always-holding hub well-formedness (C4 and C7) -/

theorem hubWF_applyH {h h' : Hub} {e : HubEvt} (hw : HubWF h)
    (hs : applyH h e = some h') : HubWF h' := by
  obtain ⟨hpats, hoT, hoP, hndT, hndP⟩ := hw
  cases e with
  | sub k =>
    simp only [applyH, Option.some.injEq] at hs
    subst hs
    cases hlk : lookupA h.topics k with
    | some t =>
      cases hsub : Topic.Sub t h.nextCh with
      | error e2 =>
        simp only [Hub.SubT, hlk, hsub]
        exact ⟨hpats, hoT, hoP, hndT, hndP⟩
      | ok pr =>
        obtain ⟨ch, t'⟩ := pr
        simp only [Hub.SubT, hlk, hsub]
        refine ⟨hpats, ?_, hoP, nodup_keys_updA _ hndT, hndP⟩
        intro k2 t2 hm
        rcases mem_updA hm with ⟨rfl, rfl⟩ | ⟨hm2, -⟩
        · exact openMem_Sub (hoT _ _ (lookupA_mem hlk)) hsub
        · exact hoT _ _ hm2
    | none =>
      cases hsub : Topic.Sub (NewTopic h.cancelled h.queueSize) h.nextCh with
      | error e2 =>
        simp only [Hub.SubT, hlk, hsub]
        refine ⟨hpats, ?_, hoP, nodup_keys_updA _ hndT, hndP⟩
        intro k2 t2 hm
        rcases mem_updA hm with ⟨rfl, rfl⟩ | ⟨hm2, -⟩
        · intro ch c hmc
          simp [NewTopic] at hmc
        · exact hoT _ _ hm2
      | ok pr =>
        obtain ⟨ch, t'⟩ := pr
        simp only [Hub.SubT, hlk, hsub]
        refine ⟨hpats, ?_, hoP, nodup_keys_updA _ (nodup_keys_updA _ hndT), hndP⟩
        intro k2 t2 hm
        rcases mem_updA hm with ⟨rfl, rfl⟩ | ⟨hm2, hne2⟩
        · refine openMem_Sub ?_ hsub
          intro ch c hmc
          simp [NewTopic] at hmc
        · rcases mem_updA hm2 with ⟨he, -⟩ | ⟨hm3, -⟩
          · exact absurd he hne2
          · exact hoT _ _ hm3
  | unsub k ch =>
    simp only [applyH] at hs
    cases hlk : lookupA h.topics k with
    | none =>
      simp only [Hub.UnsubT, hlk, Option.map_some', Option.some.injEq] at hs
      subst hs
      exact ⟨hpats, hoT, hoP, hndT, hndP⟩
    | some t =>
      simp only [Hub.UnsubT, hlk] at hs
      cases hu : Topic.Unsub t ch with
      | mk o t' =>
        rw [hu] at hs
        have hot' : OpenMem t' := by
          have := openMem_Unsub t ch (hoT _ _ (lookupA_mem hlk))
          rw [hu] at this
          exact this
        cases o with
        | panicked => simp at hs
        | alreadyClosed =>
          by_cases hz : Topic.SubLen t' = 0
          · simp only [hz, if_true, Option.map_some', Option.some.injEq] at hs
            subst hs
            exact ⟨hpats, fun k2 t2 hm => hoT _ _ (mem_delA hm), hoP,
              nodup_keys_delA _ hndT, hndP⟩
          · simp only [hz, if_false, Option.map_some', Option.some.injEq] at hs
            subst hs
            refine ⟨hpats, ?_, hoP, nodup_keys_updA _ hndT, hndP⟩
            intro k2 t2 hm
            rcases mem_updA hm with ⟨rfl, rfl⟩ | ⟨hm2, -⟩
            · exact hot'
            · exact hoT _ _ hm2
        | ok =>
          by_cases hz : Topic.SubLen t' = 0
          · simp only [hz, if_true, Option.map_some', Option.some.injEq] at hs
            subst hs
            exact ⟨hpats, fun k2 t2 hm => hoT _ _ (mem_delA hm), hoP,
              nodup_keys_delA _ hndT, hndP⟩
          · simp only [hz, if_false, Option.map_some', Option.some.injEq] at hs
            subst hs
            refine ⟨hpats, ?_, hoP, nodup_keys_updA _ hndT, hndP⟩
            intro k2 t2 hm
            rcases mem_updA hm with ⟨rfl, rfl⟩ | ⟨hm2, -⟩
            · exact hot'
            · exact hoT _ _ hm2
  | psub p =>
    simp only [applyH, Option.some.injEq] at hs
    subst hs
    cases hlk : lookupA h.ptopics p with
    | some t =>
      cases hsub : Topic.Sub t h.nextCh with
      | error e2 =>
        simp only [Hub.PSubT, hlk, hsub]
        exact ⟨hpats, hoT, hoP, hndT, hndP⟩
      | ok pr =>
        obtain ⟨ch, t'⟩ := pr
        simp only [Hub.PSubT, hlk, hsub]
        refine ⟨?_, hoT, ?_, hndT, nodup_keys_updA _ hndP⟩
        · intro p2 t2 hm
          rcases mem_updA hm with ⟨rfl, rfl⟩ | ⟨hm2, -⟩
          · exact hpats _ _ (lookupA_mem hlk)
          · exact hpats _ _ hm2
        · intro p2 t2 hm
          rcases mem_updA hm with ⟨rfl, rfl⟩ | ⟨hm2, -⟩
          · exact openMem_Sub (hoP _ _ (lookupA_mem hlk)) hsub
          · exact hoP _ _ hm2
    | none =>
      have hrg : ∀ q : String,
          q ∈ h.regexps →
          q ∈ (if h.regexps.contains p then h.regexps else h.regexps ++ [p]) := by
        intro q hq
        split_ifs
        · exact hq
        · exact List.mem_append.mpr (Or.inl hq)
      have hrgp : p ∈ (if h.regexps.contains p then h.regexps
          else h.regexps ++ [p]) := by
        by_cases hcont : h.regexps.contains p = true
        · simp only [hcont, if_true]
          simpa using hcont
        · rw [Bool.not_eq_true] at hcont
          simp only [hcont, Bool.false_eq_true, if_false]
          exact List.mem_append.mpr (Or.inr (List.mem_singleton.mpr rfl))
      cases hsub : Topic.Sub (NewTopic h.cancelled h.queueSize) h.nextCh with
      | error e2 =>
        simp only [Hub.PSubT, hlk, hsub]
        refine ⟨?_, hoT, ?_, hndT, nodup_keys_updA _ hndP⟩
        · intro p2 t2 hm
          rcases mem_updA hm with ⟨rfl, rfl⟩ | ⟨hm2, -⟩
          · exact hrgp
          · exact hrg _ (hpats _ _ hm2)
        · intro p2 t2 hm
          rcases mem_updA hm with ⟨rfl, rfl⟩ | ⟨hm2, -⟩
          · intro ch c hmc
            simp [NewTopic] at hmc
          · exact hoP _ _ hm2
      | ok pr =>
        obtain ⟨ch, t'⟩ := pr
        simp only [Hub.PSubT, hlk, hsub]
        refine ⟨?_, hoT, ?_, hndT, nodup_keys_updA _ (nodup_keys_updA _ hndP)⟩
        · intro p2 t2 hm
          rcases mem_updA hm with ⟨rfl, rfl⟩ | ⟨hm2, hne2⟩
          · exact hrgp
          · rcases mem_updA hm2 with ⟨he, -⟩ | ⟨hm3, -⟩
            · exact absurd he hne2
            · exact hrg _ (hpats _ _ hm3)
        · intro p2 t2 hm
          rcases mem_updA hm with ⟨rfl, rfl⟩ | ⟨hm2, hne2⟩
          · refine openMem_Sub ?_ hsub
            intro ch c hmc
            simp [NewTopic] at hmc
          · rcases mem_updA hm2 with ⟨he, -⟩ | ⟨hm3, -⟩
            · exact absurd he hne2
            · exact hoP _ _ hm3
  | punsub p ch =>
    simp only [applyH] at hs
    cases hlk : lookupA h.ptopics p with
    | none =>
      simp only [Hub.PUnsubT, hlk, Option.map_some', Option.some.injEq] at hs
      subst hs
      exact ⟨hpats, hoT, hoP, hndT, hndP⟩
    | some t =>
      simp only [Hub.PUnsubT, hlk] at hs
      cases hu : Topic.Unsub t ch with
      | mk o t' =>
        rw [hu] at hs
        have hot' : OpenMem t' := by
          have := openMem_Unsub t ch (hoP _ _ (lookupA_mem hlk))
          rw [hu] at this
          exact this
        cases o with
        | panicked => simp at hs
        | alreadyClosed =>
          by_cases hz : Topic.SubLen t' = 0
          · simp only [hz, if_true, Option.map_some', Option.some.injEq] at hs
            subst hs
            exact ⟨fun p2 t2 hm => hpats _ _ (mem_delA hm), hoT,
              fun p2 t2 hm => hoP _ _ (mem_delA hm), hndT, nodup_keys_delA _ hndP⟩
          · simp only [hz, if_false, Option.map_some', Option.some.injEq] at hs
            subst hs
            refine ⟨?_, hoT, ?_, hndT, nodup_keys_updA _ hndP⟩
            · intro p2 t2 hm
              rcases mem_updA hm with ⟨rfl, rfl⟩ | ⟨hm2, -⟩
              · exact hpats _ _ (lookupA_mem hlk)
              · exact hpats _ _ hm2
            · intro p2 t2 hm
              rcases mem_updA hm with ⟨rfl, rfl⟩ | ⟨hm2, -⟩
              · exact hot'
              · exact hoP _ _ hm2
        | ok =>
          by_cases hz : Topic.SubLen t' = 0
          · simp only [hz, if_true, Option.map_some', Option.some.injEq] at hs
            subst hs
            exact ⟨fun p2 t2 hm => hpats _ _ (mem_delA hm), hoT,
              fun p2 t2 hm => hoP _ _ (mem_delA hm), hndT, nodup_keys_delA _ hndP⟩
          · simp only [hz, if_false, Option.map_some', Option.some.injEq] at hs
            subst hs
            refine ⟨?_, hoT, ?_, hndT, nodup_keys_updA _ hndP⟩
            · intro p2 t2 hm
              rcases mem_updA hm with ⟨rfl, rfl⟩ | ⟨hm2, -⟩
              · exact hpats _ _ (lookupA_mem hlk)
              · exact hpats _ _ hm2
            · intro p2 t2 hm
              rcases mem_updA hm with ⟨rfl, rfl⟩ | ⟨hm2, -⟩
              · exact hot'
              · exact hoP _ _ hm2
  | pub k m =>
    simp only [applyH] at hs
    by_cases hb : (Hub.PubT h k m).2.2 = true
    · simp [hb] at hs
    · rw [Bool.not_eq_true] at hb
      simp only [hb, Bool.false_eq_true, if_false, Option.some.injEq] at hs
      subst hs
      unfold Hub.PubT
      cases hlk : lookupA h.topics k with
      | none => exact ⟨hpats, hoT, hoP, hndT, hndP⟩
      | some t =>
        have hkeys : ((h.ptopics.map fun pe =>
            if h.regexps.contains pe.1 && globMatch pe.1 k then
              (pe.1, (Topic.Pub pe.2 m).2)
            else pe).map Prod.fst) = h.ptopics.map Prod.fst := by
          rw [List.map_map]
          apply List.map_congr_left
          intro pe _
          simp only [Function.comp_apply]
          split
          · rfl
          · rfl
        refine ⟨?_, ?_, ?_, nodup_keys_updA _ hndT, by rw [hkeys]; exact hndP⟩
        · intro p2 t2 hm
          rcases List.mem_map.mp hm with ⟨pe, hpe, he⟩
          by_cases hhit : (h.regexps.contains pe.1 && globMatch pe.1 k) = true
          · simp only [hhit, if_true, Prod.mk.injEq] at he
            rw [← he.1]
            exact hpats pe.1 pe.2 hpe
          · simp only [hhit, if_false] at he
            subst he
            exact hpats _ _ hpe
        · intro k2 t2 hm
          rcases mem_updA hm with ⟨rfl, rfl⟩ | ⟨hm2, -⟩
          · exact openMem_Pub t m (hoT _ _ (lookupA_mem hlk))
          · exact hoT _ _ hm2
        · intro p2 t2 hm
          rcases List.mem_map.mp hm with ⟨pe, hpe, he⟩
          by_cases hhit : (h.regexps.contains pe.1 && globMatch pe.1 k) = true
          · simp only [hhit, if_true, Prod.mk.injEq] at he
            rw [← he.2]
            exact openMem_Pub pe.2 m (hoP pe.1 pe.2 hpe)
          · simp only [hhit, if_false] at he
            subst he
            exact hoP _ _ hpe
  | close =>
    simp only [applyH, Option.some.injEq] at hs
    subst hs
    unfold Hub.Close
    refine ⟨?_, ?_, ?_, ?_, ?_⟩
    · intro p2 t2 hm
      rcases List.mem_map.mp hm with ⟨pe, hpe, he⟩
      simp only [Prod.mk.injEq] at he
      obtain ⟨rfl, rfl⟩ := he
      exact hpats pe.1 pe.2 hpe
    · intro k2 t2 hm
      rcases List.mem_map.mp hm with ⟨pe, hpe, he⟩
      simp only [Prod.mk.injEq] at he
      obtain ⟨rfl, rfl⟩ := he
      intro ch c hmc hop
      rw [allClosed_watchFire pe.2 (hoT pe.1 pe.2 hpe) ch c hmc] at hop
      exact Bool.noConfusion hop
    · intro k2 t2 hm
      rcases List.mem_map.mp hm with ⟨pe, hpe, he⟩
      simp only [Prod.mk.injEq] at he
      obtain ⟨rfl, rfl⟩ := he
      intro ch c hmc hop
      rw [allClosed_watchFire pe.2 (hoP pe.1 pe.2 hpe) ch c hmc] at hop
      exact Bool.noConfusion hop
    · rw [keys_map_pointwise]
      exact hndT
    · rw [keys_map_pointwise]
      exact hndP
  | tick k pat =>
    cases pat with
    | true =>
      simp only [applyH] at hs
      cases hlk : lookupA h.ptopics k with
      | none =>
        simp only [hlk] at hs
        exact Option.noConfusion hs
      | some t =>
        simp only [hlk] at hs
        cases hd : Topic.deliver t with
        | none =>
          simp only [hd, Option.map_none'] at hs
          exact Option.noConfusion hs
        | some t' =>
          simp only [hd, Option.map_some', Option.some.injEq] at hs
          subst hs
          refine ⟨?_, hoT, ?_, hndT, nodup_keys_updA _ hndP⟩
          · intro p2 t2 hm
            rcases mem_updA hm with ⟨rfl, rfl⟩ | ⟨hm2, -⟩
            · exact hpats _ _ (lookupA_mem hlk)
            · exact hpats _ _ hm2
          · intro p2 t2 hm
            rcases mem_updA hm with ⟨rfl, rfl⟩ | ⟨hm2, -⟩
            · exact openMem_deliver (hoP _ _ (lookupA_mem hlk)) hd
            · exact hoP _ _ hm2
    | false =>
      simp only [applyH] at hs
      cases hlk : lookupA h.topics k with
      | none =>
        simp only [hlk] at hs
        exact Option.noConfusion hs
      | some t =>
        simp only [hlk] at hs
        cases hd : Topic.deliver t with
        | none =>
          simp only [hd, Option.map_none'] at hs
          exact Option.noConfusion hs
        | some t' =>
          simp only [hd, Option.map_some', Option.some.injEq] at hs
          subst hs
          refine ⟨hpats, ?_, hoP, nodup_keys_updA _ hndT, hndP⟩
          intro k2 t2 hm
          rcases mem_updA hm with ⟨rfl, rfl⟩ | ⟨hm2, -⟩
          · exact openMem_deliver (hoT _ _ (lookupA_mem hlk)) hd
          · exact hoT _ _ hm2

theorem hubWF_runH {evts : List HubEvt} {h0 h : Hub} (hw : HubWF h0)
    (hr : runH h0 evts = some h) : HubWF h := by
  induction evts generalizing h0 with
  | nil =>
    simp only [runH, Option.some.injEq] at hr
    subst hr
    exact hw
  | cons e es ih =>
    simp only [runH] at hr
    cases ha : applyH h0 e with
    | none => rw [ha] at hr; exact Option.noConfusion hr
    | some h1 =>
      rw [ha] at hr
      exact ih (hubWF_applyH hw ha) hr

theorem hubWF_NewHub (qs : Nat) : HubWF (NewHub qs) := by
  refine ⟨?_, ?_, ?_, ?_, ?_⟩ <;>
    first
      | (intro p2 t2 hm; simp [NewHub] at hm)
      | simp [NewHub]

theorem regexps_mono_applyH {h h' : Hub} {e : HubEvt}
    (hs : applyH h e = some h') : ∀ p ∈ h.regexps, p ∈ h'.regexps := by
  intro p hp
  cases e with
  | sub k =>
    simp only [applyH, Option.some.injEq] at hs
    subst hs
    cases hlk : lookupA h.topics k with
    | some t =>
      cases hsub : Topic.Sub t h.nextCh with
      | error e2 => simp only [Hub.SubT, hlk, hsub]; exact hp
      | ok pr =>
        obtain ⟨ch, t'⟩ := pr
        simp only [Hub.SubT, hlk, hsub]
        exact hp
    | none =>
      cases hsub : Topic.Sub (NewTopic h.cancelled h.queueSize) h.nextCh with
      | error e2 => simp only [Hub.SubT, hlk, hsub]; exact hp
      | ok pr =>
        obtain ⟨ch, t'⟩ := pr
        simp only [Hub.SubT, hlk, hsub]
        exact hp
  | psub p2 =>
    simp only [applyH, Option.some.injEq] at hs
    subst hs
    cases hlk : lookupA h.ptopics p2 with
    | some t =>
      cases hsub : Topic.Sub t h.nextCh with
      | error e2 => simp only [Hub.PSubT, hlk, hsub]; exact hp
      | ok pr =>
        obtain ⟨ch, t'⟩ := pr
        simp only [Hub.PSubT, hlk, hsub]
        exact hp
    | none =>
      cases hsub : Topic.Sub (NewTopic h.cancelled h.queueSize) h.nextCh with
      | error e2 =>
        simp only [Hub.PSubT, hlk, hsub]
        split_ifs
        · exact hp
        · exact List.mem_append.mpr (Or.inl hp)
      | ok pr =>
        obtain ⟨ch, t'⟩ := pr
        simp only [Hub.PSubT, hlk, hsub]
        split_ifs
        · exact hp
        · exact List.mem_append.mpr (Or.inl hp)
  | unsub k ch =>
    simp only [applyH] at hs
    cases hlk : lookupA h.topics k with
    | none =>
      simp only [Hub.UnsubT, hlk, Option.map_some', Option.some.injEq] at hs
      subst hs
      exact hp
    | some t =>
      simp only [Hub.UnsubT, hlk] at hs
      cases hu : Topic.Unsub t ch with
      | mk o t' =>
        rw [hu] at hs
        cases o with
        | panicked => simp at hs
        | alreadyClosed =>
          by_cases hz : Topic.SubLen t' = 0 <;>
            simp only [hz, if_true, if_false, Option.map_some',
              Option.some.injEq] at hs <;>
            subst hs <;> exact hp
        | ok =>
          by_cases hz : Topic.SubLen t' = 0 <;>
            simp only [hz, if_true, if_false, Option.map_some',
              Option.some.injEq] at hs <;>
            subst hs <;> exact hp
  | punsub p2 ch =>
    simp only [applyH] at hs
    cases hlk : lookupA h.ptopics p2 with
    | none =>
      simp only [Hub.PUnsubT, hlk, Option.map_some', Option.some.injEq] at hs
      subst hs
      exact hp
    | some t =>
      simp only [Hub.PUnsubT, hlk] at hs
      cases hu : Topic.Unsub t ch with
      | mk o t' =>
        rw [hu] at hs
        cases o with
        | panicked => simp at hs
        | alreadyClosed =>
          by_cases hz : Topic.SubLen t' = 0 <;>
            simp only [hz, if_true, if_false, Option.map_some',
              Option.some.injEq] at hs <;>
            subst hs <;> exact hp
        | ok =>
          by_cases hz : Topic.SubLen t' = 0 <;>
            simp only [hz, if_true, if_false, Option.map_some',
              Option.some.injEq] at hs <;>
            subst hs <;> exact hp
  | pub k m =>
    simp only [applyH] at hs
    by_cases hb : (Hub.PubT h k m).2.2 = true
    · simp [hb] at hs
    · rw [Bool.not_eq_true] at hb
      simp only [hb, Bool.false_eq_true, if_false, Option.some.injEq] at hs
      subst hs
      unfold Hub.PubT
      cases hlk : lookupA h.topics k with
      | none => exact hp
      | some t => exact hp
  | close =>
    simp only [applyH, Option.some.injEq] at hs
    subst hs
    exact hp
  | tick k pat =>
    cases pat with
    | true =>
      simp only [applyH] at hs
      cases hlk : lookupA h.ptopics k with
      | none =>
        simp only [hlk] at hs
        exact Option.noConfusion hs
      | some t =>
        simp only [hlk] at hs
        cases hd : Topic.deliver t with
        | none =>
          simp only [hd, Option.map_none'] at hs
          exact Option.noConfusion hs
        | some t' =>
          simp only [hd, Option.map_some', Option.some.injEq] at hs
          subst hs
          exact hp
    | false =>
      simp only [applyH] at hs
      cases hlk : lookupA h.topics k with
      | none =>
        simp only [hlk] at hs
        exact Option.noConfusion hs
      | some t =>
        simp only [hlk] at hs
        cases hd : Topic.deliver t with
        | none =>
          simp only [hd, Option.map_none'] at hs
          exact Option.noConfusion hs
        | some t' =>
          simp only [hd, Option.map_some', Option.some.injEq] at hs
          subst hs
          exact hp

/-- C4 amended: in every reachable hub state the compiled-matcher map's key
set contains every registered pattern (a matcher is compiled when a pattern
is first subscribed), and no event ever removes a matcher entry — in
particular `PUnsub` destroys the pattern's topic but leaves the matcher
registered, so equality of the two key sets fails (see the counterexample). -/
theorem matcher_registry_superset (qs : Nat) (evts : List HubEvt) (h : Hub)
    (hr : runH (NewHub qs) evts = some h) :
    (∀ p t, (p, t) ∈ h.ptopics → p ∈ h.regexps) ∧
    (∀ e h', applyH h e = some h' → ∀ p ∈ h.regexps, p ∈ h'.regexps) :=
  ⟨(hubWF_runH (hubWF_NewHub qs) hr).1,
   fun _ _ hs => regexps_mono_applyH hs⟩

/-- Witness for C4 amended on the one-pattern hub `hubPs`, including that
the `PUnsub` which destroys the topic keeps the matcher. -/
theorem matcher_registry_superset_witness :
    "p" ∈ hubPs.regexps ∧
    "p" ∈ ({ queueSize := 1, topics := [], ptopics := [], regexps := ["p"],
             cancelled := false, nextCh := 1 } : Hub).regexps := by
  have hm := matcher_registry_superset 1 [HubEvt.psub "p"] hubPs rfl
  refine ⟨hm.1 "p" tW (by decide), ?_⟩
  exact hm.2 (HubEvt.punsub "p" 0)
    { queueSize := 1, topics := [], ptopics := [], regexps := ["p"],
      cancelled := false, nextCh := 1 }
    rfl "p" (hm.1 "p" tW (by decide))

/-! ## C7 — amended shutdown theorem -/

theorem close_registered_cancelled (h : Hub) :
    (∀ k t, (k, t) ∈ (Hub.Close h).topics → t.cancelled = true) ∧
    (∀ k t, (k, t) ∈ (Hub.Close h).ptopics → t.cancelled = true) := by
  constructor <;>
  · intro k t hm
    unfold Hub.Close at hm
    rcases List.mem_map.mp hm with ⟨pe, hpe, he⟩
    simp only [Prod.mk.injEq] at he
    obtain ⟨rfl, rfl⟩ := he
    rfl

theorem pub_after_close_noop (h : Hub)
    (hnd : (((Hub.Close h).topics.map Prod.fst)).Nodup) (k : String) (m : Msg) :
    Hub.Pub (Hub.Close h) k m = Hub.Close h := by
  unfold Hub.Pub Hub.PubT
  cases hlk : lookupA (Hub.Close h).topics k with
  | none => rfl
  | some t =>
    have hc : t.cancelled = true :=
      (close_registered_cancelled h).1 k t (lookupA_mem hlk)
    have hpub : Topic.Pub t m = (PubOutcome.alreadyClosed, t) := by
      simp [Topic.Pub, hc]
    simp only [hpub]
    have h1 : updA (Hub.Close h).topics k t = (Hub.Close h).topics :=
      updA_id_of_lookup hnd hlk
    have h2 : ((Hub.Close h).ptopics.map fun pe =>
        if (Hub.Close h).regexps.contains pe.1 && globMatch pe.1 k then
          (pe.1, (Topic.Pub pe.2 m).2)
        else pe) = (Hub.Close h).ptopics := by
      have hpt : ∀ pe ∈ (Hub.Close h).ptopics,
          (if (Hub.Close h).regexps.contains pe.1 && globMatch pe.1 k then
            (pe.1, (Topic.Pub pe.2 m).2)
          else pe) = pe := by
        intro pe hpe
        have hc2 : pe.2.cancelled = true :=
          (close_registered_cancelled h).2 pe.1 pe.2 hpe
        have : Topic.Pub pe.2 m = (PubOutcome.alreadyClosed, pe.2) := by
          simp [Topic.Pub, hc2]
        rw [this]
        split
        · rfl
        · rfl
      rw [List.map_congr_left hpt, List.map_id' ]
    rw [h1, h2]

theorem subT_after_close_none (h : Hub) (k : String) :
    (Hub.SubT (Hub.Close h) k).1 = none ∧
    (Hub.PSubT (Hub.Close h) k).1 = none := by
  constructor
  · unfold Hub.SubT
    cases hlk : lookupA (Hub.Close h).topics k with
    | some t =>
      have hc := (close_registered_cancelled h).1 k t (lookupA_mem hlk)
      have hsub : Topic.Sub t (Hub.Close h).nextCh =
          Except.error TopicErr.alreadyClosed := by
        simp [Topic.Sub, hc]
      simp only [hsub]
    | none =>
      have hsub : Topic.Sub
          (NewTopic (Hub.Close h).cancelled (Hub.Close h).queueSize)
          (Hub.Close h).nextCh = Except.error TopicErr.alreadyClosed := by
        simp [Topic.Sub, NewTopic, Hub.Close]
      simp only [hsub]
  · unfold Hub.PSubT
    cases hlk : lookupA (Hub.Close h).ptopics k with
    | some t =>
      have hc := (close_registered_cancelled h).2 k t (lookupA_mem hlk)
      have hsub : Topic.Sub t (Hub.Close h).nextCh =
          Except.error TopicErr.alreadyClosed := by
        simp [Topic.Sub, hc]
      simp only [hsub]
    | none =>
      have hsub : Topic.Sub
          (NewTopic (Hub.Close h).cancelled (Hub.Close h).queueSize)
          (Hub.Close h).nextCh = Except.error TopicErr.alreadyClosed := by
        simp [Topic.Sub, NewTopic, Hub.Close]
      simp only [hsub]

/-- C7 amended: after `Hub.Close` with the cancellation cascade complete,
every subscriber channel of every registered topic is closed (streams
terminate), every subsequent `Pub` is a complete no-op on the hub state, and
every subsequent `Sub`/`PSub` returns a nil stream (the `AlreadyClosed`
error is discarded, not surfaced).  `Sub`/`PSub` on an unregistered key is
however not a no-op — it inserts a fresh cancelled empty topic, see the
counterexample and C10. -/
theorem close_cascade_amended (qs : Nat) (evts : List HubEvt) (h : Hub)
    (hr : runH (NewHub qs) evts = some h) :
    (∀ k t, ((k, t) ∈ (Hub.Close h).topics ∨ (k, t) ∈ (Hub.Close h).ptopics) →
      ∀ ch c, (ch, c) ∈ t.chans → c.closed = true) ∧
    (∀ k m, Hub.Pub (Hub.Close h) k m = Hub.Close h) ∧
    (∀ k, (Hub.SubT (Hub.Close h) k).1 = none ∧
      (Hub.PSubT (Hub.Close h) k).1 = none) := by
  have hw := hubWF_runH (hubWF_NewHub qs) hr
  refine ⟨?_, ?_, fun k => subT_after_close_none h k⟩
  · intro k t hm ch c hmc
    rcases hm with hm | hm
    · unfold Hub.Close at hm
      rcases List.mem_map.mp hm with ⟨pe, hpe, he⟩
      simp only [Prod.mk.injEq] at he
      obtain ⟨rfl, rfl⟩ := he
      exact allClosed_watchFire pe.2 (hw.2.1 pe.1 pe.2 hpe) ch c hmc
    · unfold Hub.Close at hm
      rcases List.mem_map.mp hm with ⟨pe, hpe, he⟩
      simp only [Prod.mk.injEq] at he
      obtain ⟨rfl, rfl⟩ := he
      exact allClosed_watchFire pe.2 (hw.2.2.1 pe.1 pe.2 hpe) ch c hmc
  · intro k m
    apply pub_after_close_noop
    unfold Hub.Close
    simp only
    rw [keys_map_pointwise]
    exact hw.2.2.2.1

/-- Witness for C7 amended: the closed one-subscriber hub
`hubSubbedClosed`, whose only channel is closed, rejects further use. -/
theorem close_cascade_amended_witness :
    Hub.Pub (Hub.Close hubW) "b" 5 = Hub.Close hubW ∧
    (Hub.SubT (Hub.Close hubW) "b").1 = none ∧
    (Hub.PSubT (Hub.Close hubW) "b").1 = none ∧
    (∀ ch c, (ch, c) ∈ (Topic.watchFire (Topic.Close tW)).chans →
      c.closed = true) := by
  have hthm := close_cascade_amended 1 [HubEvt.sub "a"] hubW rfl
  refine ⟨hthm.2.1 "b" 5, (hthm.2.2 "b").1, (hthm.2.2 "b").2, ?_⟩
  intro ch c hmc
  exact hthm.1 "a" (Topic.watchFire (Topic.Close tW))
    (Or.inl (by simp [Hub.Close, hubW])) ch c hmc

/-! ## The per-subscriber stream invariant (C9) -/

theorem keys_chan_mapIf {q : Nat × ChanState → Prop} [DecidablePred q]
    (g : ChanState → ChanState) (l : List (Nat × ChanState)) :
    ((l.map fun p => if q p then (p.1, g p.2) else p).map Prod.fst) =
      l.map Prod.fst := by
  rw [List.map_map]
  apply List.map_congr_left
  intro p _
  simp only [Function.comp_apply]
  split
  · rfl
  · rfl

theorem Topic.Pub_enqueued_shape {t t' : Topic} {m : Msg}
    (h : Topic.Pub t m = (PubOutcome.enqueued, t')) :
    t.cancelled = false ∧ t.pubChan.length < t.queueSize ∧
    t' = { t with pubChan := t.pubChan ++ [m],
                  pubHistory := t.pubHistory ++ [m] } := by
  unfold Topic.Pub at h
  split_ifs at h with h1 h2
  · simp at h
  · simp only [Prod.mk.injEq] at h
    exact ⟨by simpa using h1, h2, h.2.symm⟩
  · simp at h

theorem Topic.Unsub_ok_shape {t t' : Topic} {ch : Nat}
    (h : Topic.Unsub t ch = (UnsubOutcome.ok, t')) :
    t.cancelled = false ∧ ch ∈ t.subChans ∧
    t' = { t.closeChan ch with subChans := t.subChans.erase ch } := by
  unfold Topic.Unsub at h
  split_ifs at h with h1 h2
  · simp at h
  · simp only [Prod.mk.injEq] at h
    exact ⟨by simpa using h1, h2, h.2.symm⟩
  · simp at h

theorem Topic.deliver_shape {t t' : Topic}
    (h : Topic.deliver t = some t') :
    ∃ m rest, t.pubChan = m :: rest ∧
      t' = { t with
        pubChan := rest
        fanHistory := t.fanHistory ++ [m]
        chans := t.chans.map fun p =>
          if p.1 ∈ t.subChans then (p.1, { p.2 with sent := p.2.sent ++ [m] })
          else p } := by
  unfold Topic.deliver at h
  cases hpc : t.pubChan with
  | nil => rw [hpc] at h; exact absurd h (by simp)
  | cons m rest =>
    rw [hpc] at h
    split_ifs at h
    simp only [Option.some.injEq] at h
    exact ⟨m, rest, rfl, h.symm⟩

theorem Topic.recv_shape {t t' : Topic} {ch : Nat}
    (h : Topic.recv t ch = some t') :
    t' = { t with chans := t.chans.map fun q =>
      if q.1 = ch then (q.1, { q.2 with readCount := q.2.readCount + 1 })
      else q } := by
  cases hf : lookupA t.chans ch with
  | none =>
    simp only [Topic.recv, hf] at h
    exact Option.noConfusion h
  | some c =>
    simp only [Topic.recv, hf] at h
    split_ifs at h
    simp only [Option.some.injEq] at h
    exact h.symm

theorem tinv_pubShape (t : Topic) (m : Msg) (hi : TInv t) :
    TInv { t with pubChan := t.pubChan ++ [m],
                  pubHistory := t.pubHistory ++ [m] } := by
  obtain ⟨hkr, hsk, hsn, hos, hlp, hcp, hhe⟩ := hi
  refine ⟨hkr, hsk, hsn, hos, ?_, hcp, ?_⟩
  · intro ch c hm hop
    obtain ⟨h1, h2, h3, h4, h5⟩ := hlp ch c hm hop
    refine ⟨h1, h2, h3, ?_, h5⟩
    simp only [List.length_append, List.length_cons, List.length_nil]
    omega
  · simp only [hhe, List.append_assoc]

theorem tinv_close (t : Topic) (hi : TInv t) : TInv (Topic.Close t) := by
  obtain ⟨hkr, hsk, hsn, hos, hlp, hcp, hhe⟩ := hi
  exact ⟨hkr, hsk, hsn, hos, hlp, hcp, hhe⟩

theorem tinv_recvShape (t : Topic) (ch : Nat) (hi : TInv t) :
    TInv { t with chans := t.chans.map fun q =>
      if q.1 = ch then (q.1, { q.2 with readCount := q.2.readCount + 1 })
      else q } := by
  obtain ⟨hkr, hsk, hsn, hos, hlp, hcp, hhe⟩ := hi
  refine ⟨?_, ?_, hsn, ?_, ?_, ?_, hhe⟩
  · show ((t.chans.map fun q =>
      if q.1 = ch then (q.1, { q.2 with readCount := q.2.readCount + 1 })
      else q).map Prod.fst) = List.range ((t.chans.map fun q =>
      if q.1 = ch then (q.1, { q.2 with readCount := q.2.readCount + 1 })
      else q).length)
    rw [keys_chan_mapIf (q := fun q => q.1 = ch)
      (fun c => { c with readCount := c.readCount + 1 })]
    simpa using hkr
  · intro ch2 hch2
    rw [keys_chan_mapIf (q := fun q => q.1 = ch)
      (fun c => { c with readCount := c.readCount + 1 })]
    exact hsk ch2 hch2
  · intro ch2 c2 hm
    rcases List.mem_map.mp hm with ⟨p, hp, he⟩
    obtain ⟨k0, c0⟩ := p
    by_cases hk : k0 = ch
    · simp only [hk, if_true, Prod.mk.injEq] at he
      obtain ⟨rfl, rfl⟩ := he
      exact hos ch c0 (hk ▸ hp)
    · simp only [hk, if_false, Prod.mk.injEq] at he
      obtain ⟨rfl, rfl⟩ := he
      exact hos k0 c0 hp
  · intro ch2 c2 hm hop
    rcases List.mem_map.mp hm with ⟨p, hp, he⟩
    obtain ⟨k0, c0⟩ := p
    by_cases hk : k0 = ch
    · simp only [hk, if_true, Prod.mk.injEq] at he
      obtain ⟨rfl, rfl⟩ := he
      exact hlp ch c0 (hk ▸ hp) hop
    · simp only [hk, if_false, Prod.mk.injEq] at he
      obtain ⟨rfl, rfl⟩ := he
      exact hlp k0 c0 hp hop
  · intro ch2 c2 hm hcl
    rcases List.mem_map.mp hm with ⟨p, hp, he⟩
    obtain ⟨k0, c0⟩ := p
    by_cases hk : k0 = ch
    · simp only [hk, if_true, Prod.mk.injEq] at he
      obtain ⟨rfl, rfl⟩ := he
      exact hcp ch c0 (hk ▸ hp) hcl
    · simp only [hk, if_false, Prod.mk.injEq] at he
      obtain ⟨rfl, rfl⟩ := he
      exact hcp k0 c0 hp hcl

theorem tinv_subShape (t : Topic) (hi : TInv t) :
    TInv { t with
      subChans := t.subChans ++ [t.chans.length]
      chans := t.chans ++ [(t.chans.length,
        { cap := t.queueSize, sent := [], readCount := 0, closed := false,
          joinIdx := t.fanHistory.length, leftIdx := none,
          joinPub := t.pubHistory.length, leftPub := none })] } := by
  obtain ⟨hkr, hsk, hsn, hos, hlp, hcp, hhe⟩ := hi
  have hlt : ∀ ch ∈ t.subChans, ch < t.chans.length := by
    intro ch h2
    have h3 := hsk ch h2
    rw [hkr] at h3
    exact List.mem_range.mp h3
  refine ⟨?_, ?_, ?_, ?_, ?_, ?_, hhe⟩
  · simp only [List.map_append, List.map_cons, List.map_nil,
      List.length_append, List.length_cons, List.length_nil]
    rw [hkr]
    rw [show t.chans.length + (0 + 1) = t.chans.length + 1 by omega]
    rw [List.range_succ]
  · intro ch hch
    simp only [List.map_append, List.map_cons, List.map_nil]
    rcases List.mem_append.mp hch with h2 | h2
    · exact List.mem_append.mpr (Or.inl (hsk ch h2))
    · exact List.mem_append.mpr (Or.inr h2)
  · refine List.Nodup.append hsn (List.nodup_singleton _) ?_
    intro a ha hb
    simp at hb
    have := hlt a ha
    omega
  · intro ch c hm
    rcases List.mem_append.mp hm with hm | hm
    · have hne : ch ≠ t.chans.length := by
        have h3 : ch ∈ t.chans.map Prod.fst := List.mem_map.mpr ⟨(ch, c), hm, rfl⟩
        rw [hkr] at h3
        have := List.mem_range.mp h3
        omega
      rw [hos ch c hm]
      constructor
      · intro h2
        exact List.mem_append.mpr (Or.inl h2)
      · intro h2
        rcases List.mem_append.mp h2 with h2 | h2
        · exact h2
        · simp at h2
          exact absurd h2 hne
    · simp only [List.mem_singleton, Prod.mk.injEq] at hm
      obtain ⟨rfl, rfl⟩ := hm
      simp
  · intro ch c hm hop
    rcases List.mem_append.mp hm with hm | hm
    · obtain ⟨h1, h2, h3, h4, h5⟩ := hlp ch c hm hop
      exact ⟨h1, h2, h3, h4, h5⟩
    · simp only [List.mem_singleton, Prod.mk.injEq] at hm
      obtain ⟨rfl, rfl⟩ := hm
      exact ⟨rfl, rfl, le_refl _, le_refl _, (List.drop_length _).symm⟩
  · intro ch c hm hcl
    rcases List.mem_append.mp hm with hm | hm
    · exact hcp ch c hm hcl
    · simp only [List.mem_singleton, Prod.mk.injEq] at hm
      obtain ⟨rfl, rfl⟩ := hm
      exact absurd hcl (by simp)

theorem tinv_unsubShape (t : Topic) (ch : Nat) (hi : TInv t)
    (hch : ch ∈ t.subChans) :
    TInv { t.closeChan ch with subChans := t.subChans.erase ch } := by
  obtain ⟨hkr, hsk, hsn, hos, hlp, hcp, hhe⟩ := hi
  refine ⟨?_, ?_, hsn.erase ch, ?_, ?_, ?_, hhe⟩
  · show ((t.chans.map fun p => if p.1 = ch then (p.1, { p.2 with closed := true, leftIdx := some t.fanHistory.length, leftPub := some t.pubHistory.length }) else p).map Prod.fst) = _
    rw [keys_chan_mapIf (q := fun p => p.1 = ch) (fun c => { c with closed := true, leftIdx := some t.fanHistory.length, leftPub := some t.pubHistory.length })]
    simpa [Topic.closeChan] using hkr
  · intro ch2 hch2
    have h2 : ch2 ∈ t.subChans := List.erase_subset _ _ hch2
    show ch2 ∈ ((t.chans.map fun p => if p.1 = ch then (p.1, { p.2 with closed := true, leftIdx := some t.fanHistory.length, leftPub := some t.pubHistory.length }) else p).map Prod.fst)
    rw [keys_chan_mapIf (q := fun p => p.1 = ch) (fun c => { c with closed := true, leftIdx := some t.fanHistory.length, leftPub := some t.pubHistory.length })]
    exact hsk ch2 h2
  · intro ch2 c2 hm
    rcases List.mem_map.mp hm with ⟨p, hp, he⟩
    obtain ⟨k0, c0⟩ := p
    by_cases hk : k0 = ch
    · simp only [hk, if_true, Prod.mk.injEq] at he
      obtain ⟨rfl, rfl⟩ := he
      constructor
      · intro h2
        exact absurd h2 (by simp)
      · intro h2
        exact absurd h2 hsn.not_mem_erase
    · simp only [hk, if_false, Prod.mk.injEq] at he
      obtain ⟨rfl, rfl⟩ := he
      rw [hos k0 c0 hp]
      exact (List.mem_erase_of_ne hk).symm
  · intro ch2 c2 hm hop
    rcases List.mem_map.mp hm with ⟨p, hp, he⟩
    obtain ⟨k0, c0⟩ := p
    by_cases hk : k0 = ch
    · simp only [hk, if_true, Prod.mk.injEq] at he
      obtain ⟨rfl, rfl⟩ := he
      exact absurd hop (by simp)
    · simp only [hk, if_false, Prod.mk.injEq] at he
      obtain ⟨rfl, rfl⟩ := he
      exact hlp k0 c0 hp hop
  · intro ch2 c2 hm hcl
    rcases List.mem_map.mp hm with ⟨p, hp, he⟩
    obtain ⟨k0, c0⟩ := p
    by_cases hk : k0 = ch
    · simp only [hk, if_true, Prod.mk.injEq] at he
      obtain ⟨rfl, rfl⟩ := he
      have hopen : c0.closed = false := (hos ch c0 (hk ▸ hp)).mpr hch
      obtain ⟨-, -, h3, -, h5⟩ := hlp ch c0 (hk ▸ hp) hopen
      refine ⟨t.fanHistory.length, rfl, h3, le_refl _, ?_⟩
      show c0.sent = (t.fanHistory.take t.fanHistory.length).drop c0.joinIdx
      rw [List.take_length]
      exact h5
    · simp only [hk, if_false, Prod.mk.injEq] at he
      obtain ⟨rfl, rfl⟩ := he
      exact hcp k0 c0 hp hcl

theorem tinv_watchShape (t : Topic) (hi : TInv t) :
    TInv (Topic.watchFire t) := by
  obtain ⟨hkr, hsk, hsn, hos, hlp, hcp, hhe⟩ := hi
  refine ⟨?_, ?_, List.nodup_nil, ?_, ?_, ?_, hhe⟩
  · show ((t.chans.map fun p => if p.1 ∈ t.subChans then (p.1, { p.2 with closed := true, leftIdx := some t.fanHistory.length, leftPub := some t.pubHistory.length }) else p).map Prod.fst) = _
    rw [keys_chan_mapIf (q := fun p => p.1 ∈ t.subChans) (fun c => { c with closed := true, leftIdx := some t.fanHistory.length, leftPub := some t.pubHistory.length })]
    simpa [Topic.watchFire] using hkr
  · intro ch hch
    simp [Topic.watchFire] at hch
  · intro ch2 c2 hm
    rcases List.mem_map.mp hm with ⟨p, hp, he⟩
    obtain ⟨k0, c0⟩ := p
    by_cases hk : k0 ∈ t.subChans
    · simp only [hk, if_true, Prod.mk.injEq] at he
      obtain ⟨rfl, rfl⟩ := he
      simp [Topic.watchFire]
    · simp only [hk, if_false, Prod.mk.injEq] at he
      obtain ⟨rfl, rfl⟩ := he
      have h2 : ¬c0.closed = false := fun h3 => hk ((hos k0 c0 hp).mp h3)
      simp [Topic.watchFire, h2]
  · intro ch2 c2 hm hop
    rcases List.mem_map.mp hm with ⟨p, hp, he⟩
    obtain ⟨k0, c0⟩ := p
    by_cases hk : k0 ∈ t.subChans
    · simp only [hk, if_true, Prod.mk.injEq] at he
      obtain ⟨rfl, rfl⟩ := he
      exact absurd hop (by simp)
    · simp only [hk, if_false, Prod.mk.injEq] at he
      obtain ⟨rfl, rfl⟩ := he
      exact absurd ((hos k0 c0 hp).mp hop) hk
  · intro ch2 c2 hm hcl
    rcases List.mem_map.mp hm with ⟨p, hp, he⟩
    obtain ⟨k0, c0⟩ := p
    by_cases hk : k0 ∈ t.subChans
    · simp only [hk, if_true, Prod.mk.injEq] at he
      obtain ⟨rfl, rfl⟩ := he
      have hopen : c0.closed = false := (hos k0 c0 hp).mpr hk
      obtain ⟨-, -, h3, -, h5⟩ := hlp k0 c0 hp hopen
      refine ⟨t.fanHistory.length, rfl, h3, le_refl _, ?_⟩
      show c0.sent = (t.fanHistory.take t.fanHistory.length).drop c0.joinIdx
      rw [List.take_length]
      exact h5
    · simp only [hk, if_false, Prod.mk.injEq] at he
      obtain ⟨rfl, rfl⟩ := he
      exact hcp k0 c0 hp hcl

theorem tinv_deliverShape (t : Topic) (m : Msg) (rest : List Msg)
    (hi : TInv t) (hpc : t.pubChan = m :: rest) :
    TInv { t with
      pubChan := rest
      fanHistory := t.fanHistory ++ [m]
      chans := t.chans.map fun p =>
        if p.1 ∈ t.subChans then (p.1, { p.2 with sent := p.2.sent ++ [m] })
        else p } := by
  obtain ⟨hkr, hsk, hsn, hos, hlp, hcp, hhe⟩ := hi
  refine ⟨?_, ?_, hsn, ?_, ?_, ?_, ?_⟩
  · show ((t.chans.map fun p =>
        if p.1 ∈ t.subChans then (p.1, { p.2 with sent := p.2.sent ++ [m] })
        else p).map Prod.fst) = _
    rw [keys_chan_mapIf (q := fun p => p.1 ∈ t.subChans)
      (fun c => { c with sent := c.sent ++ [m] })]
    simpa using hkr
  · intro ch hch
    show ch ∈ (t.chans.map fun p =>
        if p.1 ∈ t.subChans then (p.1, { p.2 with sent := p.2.sent ++ [m] })
        else p).map Prod.fst
    rw [keys_chan_mapIf (q := fun p => p.1 ∈ t.subChans)
      (fun c => { c with sent := c.sent ++ [m] })]
    exact hsk ch hch
  · intro ch2 c2 hm
    rcases List.mem_map.mp hm with ⟨p, hp, he⟩
    obtain ⟨k0, c0⟩ := p
    by_cases hk : k0 ∈ t.subChans
    · simp only [hk, if_true, Prod.mk.injEq] at he
      obtain ⟨rfl, rfl⟩ := he
      exact hos k0 c0 hp
    · simp only [hk, if_false, Prod.mk.injEq] at he
      obtain ⟨rfl, rfl⟩ := he
      exact hos k0 c0 hp
  · intro ch2 c2 hm hop
    rcases List.mem_map.mp hm with ⟨p, hp, he⟩
    obtain ⟨k0, c0⟩ := p
    by_cases hk : k0 ∈ t.subChans
    · simp only [hk, if_true, Prod.mk.injEq] at he
      obtain ⟨rfl, rfl⟩ := he
      obtain ⟨h1, h2, h3, h4, h5⟩ := hlp k0 c0 hp hop
      refine ⟨h1, h2, ?_, h4, ?_⟩
      · simp only [List.length_append, List.length_cons, List.length_nil]
        omega
      · show c0.sent ++ [m] = (t.fanHistory ++ [m]).drop c0.joinIdx
        rw [List.drop_append_of_le_length h3, h5]
    · simp only [hk, if_false, Prod.mk.injEq] at he
      obtain ⟨rfl, rfl⟩ := he
      exact absurd ((hos k0 c0 hp).mp hop) hk
  · intro ch2 c2 hm hcl
    rcases List.mem_map.mp hm with ⟨p, hp, he⟩
    obtain ⟨k0, c0⟩ := p
    by_cases hk : k0 ∈ t.subChans
    · simp only [hk, if_true, Prod.mk.injEq] at he
      obtain ⟨rfl, rfl⟩ := he
      have hopen : c0.closed = false := (hos k0 c0 hp).mpr hk
      rw [hopen] at hcl
      exact Bool.noConfusion hcl
    · simp only [hk, if_false, Prod.mk.injEq] at he
      obtain ⟨rfl, rfl⟩ := he
      obtain ⟨L, h1, h2, h3, h4⟩ := hcp k0 c0 hp hcl
      refine ⟨L, h1, h2, ?_, ?_⟩
      · simp only [List.length_append, List.length_cons, List.length_nil]
        omega
      · rw [List.take_append_of_le_length h3]
        exact h4
  · show t.pubHistory = (t.fanHistory ++ [m]) ++ rest
    rw [hhe, hpc, List.append_assoc]
    rfl

theorem tinv_applyT {t t' : Topic} {e : TEvt} (hi : TInv t)
    (hs : applyT t e = some t') : TInv t' := by
  cases e with
  | pub m =>
    simp only [applyT] at hs
    cases hp : Topic.Pub t m with
    | mk o t2 =>
      rw [hp] at hs
      cases o with
      | enqueued =>
        simp only [Option.some.injEq] at hs
        subst hs
        obtain ⟨-, -, rfl⟩ := Topic.Pub_enqueued_shape hp
        exact tinv_pubShape t m hi
      | alreadyClosed => simp at hs
      | blocked => simp at hs
  | sub =>
    simp only [applyT] at hs
    cases hsub : Topic.Sub t t.chans.length with
    | error e2 =>
      rw [hsub] at hs
      simp at hs
    | ok pr =>
      obtain ⟨ch, t2⟩ := pr
      rw [hsub] at hs
      simp only [Option.some.injEq] at hs
      subst hs
      obtain ⟨-, -, rfl⟩ := Topic.Sub_ok_shape hsub
      exact tinv_subShape t hi
  | unsub ch =>
    simp only [applyT] at hs
    cases hu : Topic.Unsub t ch with
    | mk o t2 =>
      rw [hu] at hs
      cases o with
      | ok =>
        simp only [Option.some.injEq] at hs
        subst hs
        obtain ⟨-, hch, rfl⟩ := Topic.Unsub_ok_shape hu
        exact tinv_unsubShape t ch hi hch
      | alreadyClosed => simp at hs
      | panicked => simp at hs
  | deliver =>
    obtain ⟨m, rest, hpc, rfl⟩ := Topic.deliver_shape hs
    exact tinv_deliverShape t m rest hi hpc
  | recv ch =>
    have := Topic.recv_shape hs
    subst this
    exact tinv_recvShape t ch hi
  | close =>
    simp only [applyT, Option.some.injEq] at hs
    subst hs
    exact tinv_close t hi
  | watch =>
    simp only [applyT] at hs
    split_ifs at hs
    simp only [Option.some.injEq] at hs
    subst hs
    exact tinv_watchShape t hi

theorem tinv_init (qs : Nat) : TInv (NewTopic false qs) := by
  refine ⟨rfl, ?_, ?_, ?_, ?_, ?_, rfl⟩ <;> simp [NewTopic]

theorem tinv_runT {evts : List TEvt} {t0 t : Topic} (hi : TInv t0)
    (hr : runT t0 evts = some t) : TInv t := by
  induction evts generalizing t0 with
  | nil =>
    simp only [runT, Option.some.injEq] at hr
    subst hr
    exact hi
  | cons e es ih =>
    simp only [runT] at hr
    cases ha : applyT t0 e with
    | none => rw [ha] at hr; exact Option.noConfusion hr
    | some t1 =>
      rw [ha] at hr
      exact ih (tinv_applyT hi ha) hr

/-- C9 amended: in every state of a topic's execution, each subscriber
channel's stream is exactly the contiguous slice of the broadcast fan-out
history between the channel's registration and its close — in publish order
and exactly once, because the fan-out history is a prefix of the publish
history (`pubHistory = fanHistory ++ intake buffer`).  A live channel holds
exactly the fan-out messages since it joined.  Messages that were accepted
into the intake queue but not yet fanned out when the subscriber leaves (or
the topic closes) are absent from the slice: they are lost to that
subscriber, which is what refutes the original claim. -/
theorem subscriber_stream_slice (qs : Nat) (evts : List TEvt) (t : Topic)
    (hr : runT (NewTopic false qs) evts = some t) :
    t.pubHistory = t.fanHistory ++ t.pubChan ∧
    ∀ ch c, (ch, c) ∈ t.chans →
      (c.closed = false → c.sent = t.fanHistory.drop c.joinIdx) ∧
      (c.closed = true → ∃ L, c.leftIdx = some L ∧ c.joinIdx ≤ L ∧
        L ≤ t.fanHistory.length ∧
        c.sent = (t.fanHistory.take L).drop c.joinIdx) := by
  have hi := tinv_runT (tinv_init qs) hr
  refine ⟨hi.histEq, ?_⟩
  intro ch c hm
  constructor
  · intro hop
    exact (hi.livePart ch c hm hop).2.2.2.2
  · intro hcl
    exact hi.closedPart ch c hm hcl

/-- Witness for C9 amended: subscribe, publish `5`, deliver, unsubscribe —
the closed stream holds exactly the fanned-out slice `[5]`. -/
theorem subscriber_stream_slice_witness :
    t9b.pubHistory = t9b.fanHistory ++ t9b.pubChan ∧
    (c9b.closed = true → ∃ L, c9b.leftIdx = some L ∧ c9b.joinIdx ≤ L ∧
      L ≤ t9b.fanHistory.length ∧
      c9b.sent = (t9b.fanHistory.take L).drop c9b.joinIdx) :=
  have h := subscriber_stream_slice 1
    [TEvt.sub, TEvt.pub 5, TEvt.deliver, TEvt.unsub 0] t9b rfl
  ⟨h.1, (h.2 0 c9b (by decide)).2⟩
